import Mathlib

/-!
Shallow embedding of `app/services/centrality.py` (course-networks repository).

Modelling conventions:
* Python `dict` → insertion-ordered association list `List (κ × α)`:
  lookup returns the first (unique) binding, update replaces the value in
  place, and inserting a fresh key appends at the end — exactly CPython's
  ordered-dict semantics.  `defaultdict` access that inserts a default is
  modelled by `dset` with the looked-up-or-default value.
* Python `set` → duplicate-free list (`setAdd` appends when absent).  Only
  membership and cardinality of these sets are observable in the claims, so
  the hash-based iteration order of CPython sets does not matter.
* Python `float` → `ℚ`.  Every arithmetic step of the algorithms
  (ratios `sigma[v]/sigma[w]`, averages, reciprocals, normalisation) is a
  field operation, exact in `ℚ`.  The one genuinely real-valued operation,
  `** 0.5` in the eigenvector norm, is kept as an explicit function
  parameter `sqrtFn : ℚ → ℚ`; no claim depends on its value.
* Python `int` → `Int` (weights, attributes) or `Nat` (hop distances).
* `while` loops → fuel-based recursion with a fuel value that provably
  dominates the number of iterations.
-/

/-- Python dict lookup: first binding of the key, if any (`d.get(k)`). -/
def dget [DecidableEq κ] : List (κ × α) → κ → Option α
  | [], _ => none
  | (k1, v) :: rest, k => if k1 = k then some v else dget rest k

/-- Python `d.get(k, dflt)`. -/
def dgetD [DecidableEq κ] (d : List (κ × α)) (k : κ) (dflt : α) : α :=
  (dget d k).getD dflt

/-- Python `d[k] = v`: replace in place if the key is present, else append. -/
def dset [DecidableEq κ] : List (κ × α) → κ → α → List (κ × α)
  | [], k, v => [(k, v)]
  | (k1, v1) :: rest, k, v =>
    if k1 = k then (k, v) :: rest else (k1, v1) :: dset rest k v

/-- Keys of a dict in insertion order (`list(d.keys())`). -/
def dkeys (d : List (κ × α)) : List κ := d.map Prod.fst

/-- Python `set.add`: append when absent, duplicate-free list as set. -/
def setAdd [DecidableEq κ] (s : List κ) (x : κ) : List κ :=
  if x ∈ s then s else s ++ [x]

/-- The `SimpleGraph` class of `centrality.py`: adjacency dict
`node -> (neighbor -> weight)` plus a node-attribute dict. -/
structure PyGraph where
  adj : List (String × List (String × Int))
  node_attrs : List (String × List (String × Int))
deriving Repr, DecidableEq

/-- The `SimpleGraph.__init__` state: both dicts empty. -/
def PyGraph.empty : PyGraph := ⟨[], []⟩

/-- `add_node`: create an empty adjacency row when absent, then
(re)assign the attribute dict for the node. -/
def PyGraph.add_node (g : PyGraph) (node : String)
    (attrs : List (String × Int)) : PyGraph :=
  { adj := if node ∈ dkeys g.adj then g.adj else g.adj ++ [(node, [])]
    node_attrs := dset g.node_attrs node attrs }

/-- `add_edge`: set `adj[u][v]` and `adj[v][u]` (the `defaultdict` creates
missing rows), then ensure both nodes have an attribute entry. -/
def PyGraph.add_edge (g : PyGraph) (u v : String) (weight : Int := 1) :
    PyGraph :=
  let adj1 := dset g.adj u (dset (dgetD g.adj u []) v weight)
  let adj2 := dset adj1 v (dset (dgetD adj1 v []) u weight)
  let na1 := if u ∈ dkeys g.node_attrs then g.node_attrs
             else g.node_attrs ++ [(u, [])]
  let na2 := if v ∈ dkeys na1 then na1 else na1 ++ [(v, [])]
  { adj := adj2, node_attrs := na2 }

/-- `nodes()`: the adjacency keys in insertion order. -/
def PyGraph.nodes (g : PyGraph) : List String := dkeys g.adj

/-- `neighbors(node)`: `self.adj.get(node, ∅)` — a non-inserting read. -/
def PyGraph.neighbors (g : PyGraph) (node : String) : List (String × Int) :=
  dgetD g.adj node []

/-- `get_node_attr(node, attr, default)`: two chained non-inserting reads. -/
def PyGraph.get_node_attr (g : PyGraph) (node attr : String)
    (dflt : Int := 0) : Int :=
  dgetD (dgetD g.node_attrs node []) attr dflt

/-- `num_nodes()`. -/
def PyGraph.num_nodes (g : PyGraph) : Nat := g.adj.length

/-- `num_edges()`: half the sum of the adjacency-row lengths. -/
def PyGraph.num_edges (g : PyGraph) : Nat :=
  (g.adj.map (fun p => p.2.length)).sum / 2

/-- Inner loop of `edges()`: walk one adjacency row, yielding `(u, v, w)`
unless `(v, u)` is already in `seen`, and recording `(u, v)` when yielding.
Returns the yielded edges together with the updated `seen` set. -/
def edgesInner (u : String) :
    List (String × Int) → List (String × String) →
    List (String × String × Int) × List (String × String)
  | [], seen => ([], seen)
  | (v, w) :: rest, seen =>
    if (v, u) ∈ seen then edgesInner u rest seen
    else
      let r := edgesInner u rest ((u, v) :: seen)
      ((u, v, w) :: r.1, r.2)

/-- Outer loop of `edges()` over the adjacency rows. -/
def edgesOuter :
    List (String × List (String × Int)) → List (String × String) →
    List (String × String × Int)
  | [], _ => []
  | (u, nbrs) :: rest, seen =>
    let r := edgesInner u nbrs seen
    r.1 ++ edgesOuter rest r.2

/-- `edges()`: each stored adjacency entry, de-duplicated by the `seen` set. -/
def PyGraph.edges (g : PyGraph) : List (String × String × Int) :=
  edgesOuter g.adj []

/-- Spec side: closed form of `edges()` for well-formed graphs.  Walking
the rows in order with the list of already-walked keys (`prior`), each row
emits its entries whose neighbor has not been walked yet — i.e. every
symmetric edge is emitted exactly once, from the endpoint that appears
first in the adjacency dict. -/
def edgesSpec :
    List (String × List (String × Int)) → List String →
    List (String × String × Int)
  | [], _ => []
  | (u, row) :: rest, prior =>
    (row.filter (fun p => p.1 ∉ prior)).map (fun p => (u, p.1, p.2)) ++
      edgesSpec rest (prior ++ [u])

/-- Size bound used as BFS fuel: total number of adjacency entries. -/
def adjSize (g : PyGraph) : Nat := (g.adj.map (fun p => p.2.length)).sum

/-- Inner loop of `bfs_shortest_paths`: scan the popped node's neighbors,
assigning distance `dnode + 1` to the unseen ones and enqueueing them. -/
def bfsVisit (dnode : Nat) :
    List String → List (String × Nat) → List String →
    List (String × Nat) × List String
  | [], distances, queue => (distances, queue)
  | nb :: rest, distances, queue =>
    if nb ∈ dkeys distances then bfsVisit dnode rest distances queue
    else bfsVisit dnode rest (distances ++ [(nb, dnode + 1)]) (queue ++ [nb])

/-- The `while queue` loop of `bfs_shortest_paths`.  Every enqueued node is
freshly added to `distances`, so the pop count is bounded by
`adjSize g + 1`; that bound is supplied as fuel. -/
def bfsLoop (g : PyGraph) :
    Nat → List (String × Nat) → List String → List (String × Nat)
  | 0, distances, _ => distances
  | _ + 1, distances, [] => distances
  | fuel + 1, distances, node :: queue =>
    let dnode := dgetD distances node 0
    let r := bfsVisit dnode ((g.neighbors node).map Prod.fst) distances queue
    bfsLoop g fuel r.1 r.2

/-- `bfs_shortest_paths(graph, source)`. -/
def bfs_shortest_paths (g : PyGraph) (source : String) :
    List (String × Nat) :=
  bfsLoop g (adjSize g + 1) [(source, 0)] [source]

/-- Per-source state of the Brandes BFS in `betweenness_centrality`:
visitation stack, predecessor lists, shortest-path counts and hop
distances (`-1` = undiscovered). -/
structure BrandesState where
  stack : List String
  predecessors : List (String × List String)
  sigma : List (String × ℚ)
  dist : List (String × Int)
deriving Repr, DecidableEq

/-- Initial Brandes state for a source: empty predecessor lists, `sigma`
zero except `1` at the source, `dist` equal to `-1` except `0` at the
source. -/
def brandesInit (nodes : List String) (source : String) : BrandesState :=
  { stack := []
    predecessors := nodes.map (fun node => (node, ([] : List String)))
    sigma := dset (nodes.map (fun node => (node, (0 : ℚ)))) source 1
    dist := dset (nodes.map (fun node => (node, (-1 : Int)))) source 0 }

/-- Neighbor scan of the Brandes BFS for the popped node `v`: first-visit
distance assignment and enqueue, then the shortest-path-via-`v` update of
`sigma` and `predecessors`.  Each dict read happens at the program point of
the corresponding Python read. -/
def brandesVisit (v : String) :
    List String → BrandesState → List String → BrandesState × List String
  | [], st, queue => (st, queue)
  | w :: rest, st, queue =>
    let firstVisit := dgetD st.dist w (-1) < 0
    let st1 := if firstVisit then
        { st with dist := dset st.dist w (dgetD st.dist v (-1) + 1) }
      else st
    let queue1 := if firstVisit then queue ++ [w] else queue
    let st2 := if dgetD st1.dist w (-1) = dgetD st1.dist v (-1) + 1 then
        { st1 with
          sigma := dset st1.sigma w
            (dgetD st1.sigma w 0 + dgetD st1.sigma v 0)
          predecessors := dset st1.predecessors w
            (dgetD st1.predecessors w [] ++ [v]) }
      else st1
    brandesVisit v rest st2 queue1

/-- The `while queue` loop of the Brandes BFS: pop, push onto the stack,
scan neighbors.  Fuel bounds the pop count. -/
def brandesLoop (g : PyGraph) :
    Nat → BrandesState → List String → BrandesState
  | 0, st, _ => st
  | _ + 1, st, [] => st
  | fuel + 1, st, v :: queue =>
    let st1 := { st with stack := st.stack ++ [v] }
    let r := brandesVisit v ((g.neighbors v).map Prod.fst) st1 queue
    brandesLoop g fuel r.1 r.2

/-- The `for v in predecessors[w]` accumulation:
`delta[v] += sigma[v]/sigma[w] * (1 + delta[w])`. -/
def accumVisit (sigma : List (String × ℚ)) (w : String) :
    List String → List (String × ℚ) → List (String × ℚ)
  | [], delta => delta
  | v :: rest, delta =>
    accumVisit sigma w rest
      (dset delta v (dgetD delta v 0 +
        dgetD sigma v 0 / dgetD sigma w 0 * (1 + dgetD delta w 0)))

/-- The `while stack` accumulation loop, already given the stack in pop
order (reverse of push order); adds `delta[w]` to `betweenness[w]` for
every popped `w` other than the source. -/
def accumLoop (source : String) (preds : List (String × List String))
    (sigma : List (String × ℚ)) :
    List String → List (String × ℚ) → List (String × ℚ) →
    List (String × ℚ)
  | [], _, betweenness => betweenness
  | w :: rest, delta, betweenness =>
    let delta1 := accumVisit sigma w (dgetD preds w []) delta
    let betweenness1 := if w ≠ source then
        dset betweenness w (dgetD betweenness w 0 + dgetD delta1 w 0)
      else betweenness
    accumLoop source preds sigma rest delta1 betweenness1

/-- One source iteration of `betweenness_centrality`: Brandes BFS followed
by dependency accumulation into the running `betweenness` dict. -/
def brandesFromSource (g : PyGraph) (nodes : List String)
    (betweenness : List (String × ℚ)) (source : String) :
    List (String × ℚ) :=
  let st := brandesLoop g (g.num_nodes + adjSize g + 1)
    (brandesInit nodes source) [source]
  accumLoop source st.predecessors st.sigma st.stack.reverse
    (nodes.map (fun node => (node, (0 : ℚ)))) betweenness

/-- The unnormalised accumulation over all sources (the state of the
`betweenness` dict just before the normalisation step). -/
def betweennessRaw (g : PyGraph) : List (String × ℚ) :=
  let nodes := g.nodes
  nodes.foldl (fun betweenness source =>
    brandesFromSource g nodes betweenness source)
    (nodes.map (fun node => (node, (0 : ℚ))))

/-- `betweenness_centrality(graph)`: raw Brandes accumulation, then for
`n > 2` an in-place rescaling of every entry by `2 / ((n-1)(n-2))`. -/
def betweenness_centrality (g : PyGraph) : List (String × ℚ) :=
  let betweenness := betweennessRaw g
  let n := g.nodes.length
  if 2 < n then
    betweenness.map (fun p =>
      (p.1, p.2 * (2 / (((n : ℚ) - 1) * ((n : ℚ) - 2)))))
  else betweenness

/-- `closeness_centrality(graph)`: reciprocal of the mean BFS distance to
reachable other nodes, `0` when there are none (or the mean is `0`). -/
def closeness_centrality (g : PyGraph) : List (String × ℚ) :=
  g.nodes.map (fun node =>
    let distances := bfs_shortest_paths g node
    let reachable := (distances.filter
      (fun p => p.1 ≠ node ∧ 0 < p.2)).map Prod.snd
    if reachable ≠ [] then
      let avg_dist : ℚ := ((reachable.map (fun d => (d : ℚ))).sum) /
        (reachable.length : ℚ)
      (node, if 0 < avg_dist then 1 / avg_dist else 0)
    else (node, 0))

/-- One power-iteration step of `eigenvector_centrality`: recompute every
node's score from `prev`, then L2-normalise unless the norm is `0`.  The
float `** 0.5` is the supplied `sqrtFn`. -/
def evStep (sqrtFn : ℚ → ℚ) (g : PyGraph) (nodes : List String)
    (prev : List (String × ℚ)) : List (String × ℚ) :=
  let updated := nodes.map (fun node =>
    (node, ((g.neighbors node).map
      (fun p => dgetD prev p.1 0 * (p.2 : ℚ))).sum))
  let norm := sqrtFn ((updated.map (fun p => p.2 * p.2)).sum)
  if 0 < norm then updated.map (fun p => (p.1, p.2 / norm)) else updated

/-- The `for _ in range(max_iter)` loop of `eigenvector_centrality` with
its early exit once the L1 difference falls below `tol`. -/
def evLoop (sqrtFn : ℚ → ℚ) (g : PyGraph) (nodes : List String) (tol : ℚ) :
    Nat → List (String × ℚ) → List (String × ℚ)
  | 0, centrality => centrality
  | fuel + 1, centrality =>
    let next := evStep sqrtFn g nodes centrality
    let diff := (nodes.map (fun node =>
      |dgetD next node 0 - dgetD centrality node 0|)).sum
    if diff < tol then next else evLoop sqrtFn g nodes tol fuel next

/-- `eigenvector_centrality(graph, max_iter=100, tol=1e-6)`.  `tol` is
modelled as the exact rational `1/1000000`; no claim depends on the
difference from the nearest binary double. -/
def eigenvector_centrality (sqrtFn : ℚ → ℚ) (g : PyGraph)
    (max_iter : Nat := 100) (tol : ℚ := 1/1000000) : List (String × ℚ) :=
  let nodes := g.nodes
  if nodes.length = 0 then []
  else evLoop sqrtFn g nodes tol max_iter
    (nodes.map (fun node => (node, (1 : ℚ) / (nodes.length : ℚ))))

/-- `average_separation(graph)`: mean BFS distance to the entries other
than the node itself, `0` when there are none. -/
def average_separation (g : PyGraph) : List (String × ℚ) :=
  g.nodes.map (fun node =>
    let distances := bfs_shortest_paths g node
    let reachable := (distances.filter (fun p => p.1 ≠ node)).map Prod.snd
    if reachable ≠ [] then
      (node, ((reachable.map (fun d => (d : ℚ))).sum) /
        (reachable.length : ℚ))
    else (node, 0))

/-- Python `round(x, prec)` over `ℚ`.  At exact ties CPython rounds half to
even while `round` here rounds half up; no claim evaluates at a tie. -/
def roundTo (prec : Nat) (x : ℚ) : ℚ :=
  ((round (x * 10 ^ prec) : ℤ) : ℚ) / 10 ^ prec

/-- The per-node score record of `calculate_centralities`. -/
structure CentScores where
  betweenness : ℚ
  closeness : ℚ
  eigenvector : ℚ
  avg_separation : ℚ
deriving Repr, DecidableEq

/-- A student record as consumed by the builders: `{id, courses}`. -/
structure Student where
  id : String
  courses : List String
deriving Repr, DecidableEq

namespace CentralityService

/-- The module-level excluded-course constant. -/
def EXCLUDED_COURSE : String := "SOCI 101"

/-- Lexicographic code-point comparison of char lists: Python's string `<`. -/
def lexLt : List Char → List Char → Bool
  | [], [] => false
  | [], _ :: _ => true
  | _ :: _, [] => false
  | c :: cs, d :: ds =>
    if c.toNat < d.toNat then true
    else if d.toNat < c.toNat then false
    else lexLt cs ds

/-- Python string comparison `a < b` (code-point lexicographic). -/
def pyStrLt (a b : String) : Bool := lexLt a.data b.data

/-- Python `sorted([a, b])` for two strings (stable two-element sort). -/
def sortPair (a b : String) : String × String :=
  if pyStrLt b a then (b, a) else (a, b)

/-- The nested `for i / for j in range(i+1, …)` pair enumeration, each pair
canonicalised by `sorted`. -/
def pairsOf : List String → List (String × String)
  | [] => []
  | x :: rest => rest.map (fun y => sortPair x y) ++ pairsOf rest

/-- The `course -> set of student ids` map of `build_student_network`
(excluding `EXCLUDED_COURSE`), a `defaultdict(set)` filled in input order. -/
def courseStudentsMap (students : List Student) :
    List (String × List String) :=
  students.foldl (fun m s =>
    s.courses.foldl (fun m course =>
      if course ≠ EXCLUDED_COURSE then
        dset m course (setAdd (dgetD m course []) s.id)
      else m) m) []

/-- The `edge_weights` accumulation: for each key of the course map, count
every unordered pair of its students, a `defaultdict(int)`. -/
def edgeWeightsOf (m : List (String × List String)) :
    List ((String × String) × Int) :=
  m.foldl (fun ew p =>
    (pairsOf p.2).foldl (fun ew pr => dset ew pr (dgetD ew pr 0 + 1)) ew) []

/-- `build_student_network(students)`. -/
def build_student_network (students : List Student) : PyGraph :=
  let G := students.foldl
    (fun G s => G.add_node s.id [("course_count", (s.courses.length : Int))])
    PyGraph.empty
  let edge_weights := edgeWeightsOf (courseStudentsMap students)
  edge_weights.foldl (fun G p => G.add_edge p.1.1 p.1.2 p.2) G

/-- The `course_enrollment` counter of `build_course_network`. -/
def courseEnrollment (students : List Student) : List (String × Int) :=
  students.foldl (fun m s =>
    s.courses.foldl (fun m course =>
      if course ≠ EXCLUDED_COURSE then dset m course (dgetD m course 0 + 1)
      else m) m) []

/-- The `student -> filtered course list` map of `build_course_network`;
students whose filtered list is empty are skipped. -/
def studentCoursesMap (students : List Student) :
    List (String × List String) :=
  students.foldl (fun m s =>
    let filtered := s.courses.filter (fun c => c ≠ EXCLUDED_COURSE)
    if filtered ≠ [] then dset m s.id filtered else m) []

/-- `build_course_network(students)`. -/
def build_course_network (students : List Student) : PyGraph :=
  let course_enrollment := courseEnrollment students
  let G := course_enrollment.foldl
    (fun G p => G.add_node p.1 [("enrollment", p.2)]) PyGraph.empty
  let edge_weights := edgeWeightsOf (studentCoursesMap students)
  edge_weights.foldl (fun G p => G.add_edge p.1.1 p.1.2 p.2) G

/-- `calculate_centralities(G)`: empty dict on an empty graph, otherwise
one rounded score record per node, reading each algorithm's dict with
`.get(node, 0)`. -/
def calculate_centralities (sqrtFn : ℚ → ℚ) (G : PyGraph) :
    List (String × CentScores) :=
  if G.num_nodes = 0 then []
  else
    let bc := betweenness_centrality G
    let cc := closeness_centrality G
    let ec := eigenvector_centrality sqrtFn G
    let avg_sep := average_separation G
    G.nodes.map (fun node =>
      (node,
        { betweenness := roundTo 4 (dgetD bc node 0)
          closeness := roundTo 4 (dgetD cc node 0)
          eigenvector := roundTo 4 (dgetD ec node 0)
          avg_separation := roundTo 2 (dgetD avg_sep node 0) }))

end CentralityService

/-- The two-student scenario from the spec's testable properties. -/
def demoStudents : List Student :=
  [⟨"A1111", ["SOCI 101", "PSYC 210"]⟩, ⟨"B2222", ["PSYC 210", "ECON 101"]⟩]

/-- Spec side: number of distinct non-excluded courses taken by both
students (counted over `s.courses`, assumed duplicate-free). -/
def sharedCourseCount (s t : Student) : Nat :=
  (s.courses.filter (fun c =>
    c ≠ CentralityService.EXCLUDED_COURSE ∧ c ∈ t.courses)).length

/-- Spec side: the distinct non-excluded courses of a record set. -/
def nonExcludedCourses (students : List Student) : List String :=
  (students.map (fun s => s.courses.filter
    (fun c => c ≠ CentralityService.EXCLUDED_COURSE))).flatten.dedup

/-- Spec side: enrollment of a course = number of students listing it. -/
def specEnrollment (students : List Student) (c : String) : Nat :=
  (students.filter (fun s => c ∈ s.courses)).length

/-- One public mutation of `SimpleGraph`. -/
inductive GraphOp where
  | addNode (node : String) (attrs : List (String × Int))
  | addEdge (u v : String) (weight : Int)
deriving Repr, DecidableEq

/-- Apply one mutation. -/
def applyOp (g : PyGraph) : GraphOp → PyGraph
  | .addNode node attrs => g.add_node node attrs
  | .addEdge u v w => g.add_edge u v w

/-- The graph reached from `__init__` by a sequence of mutations. -/
def applyOps (ops : List GraphOp) : PyGraph :=
  ops.foldl applyOp PyGraph.empty

/-- An operation that never inserts a self-loop. -/
def NoLoopOp : GraphOp → Prop
  | .addNode _ _ => True
  | .addEdge u v _ => u ≠ v

/-- Structural invariant of reachable `SimpleGraph` states: duplicate-free
adjacency keys and rows, symmetric adjacency (same stored weight in both
directions, including joint absence), and attribute keys matching the
adjacency keys. -/
def PyGraphWF (g : PyGraph) : Prop :=
  (dkeys g.adj).Nodup ∧
  (∀ p ∈ g.adj, (dkeys p.2).Nodup) ∧
  (∀ u v, dget (g.neighbors u) v = dget (g.neighbors v) u) ∧
  dkeys g.node_attrs = dkeys g.adj

/-- Hop-count reachability over the adjacency structure: `ReachN g s v n`
holds when some walk of `n` edges joins `s` to `v`.  Edge weights play no
role. -/
inductive ReachN (g : PyGraph) (source : String) : String → Nat → Prop where
  | refl : ReachN g source source 0
  | step {v w : String} {n : Nat} : ReachN g source v n →
      w ∈ dkeys (g.neighbors v) → ReachN g source w (n + 1)

/-- All strings appearing as a neighbor key in some adjacency row; the
pool from which every non-source BFS discovery is drawn. -/
def allNeighborKeys (g : PyGraph) : List String :=
  (g.adj.map (fun p => dkeys p.2)).flatten

/-- Invariant of the `bfs_shortest_paths` loop state, relating the
`distances` dict and the pending `queue`.  With `queue = []` it is the
loop postcondition. -/
structure BfsInv (g : PyGraph) (source : String)
    (dist : List (String × Nat)) (queue : List String) : Prop where
  nodup : (dkeys dist).Nodup
  keysBound : ∀ k ∈ dkeys dist, k = source ∨ k ∈ allNeighborKeys g
  sound : ∀ p ∈ dist, ReachN g source p.1 p.2
  queueSub : queue ⊆ dkeys dist
  queueNodup : queue.Nodup
  src : dget dist source = some 0
  mono : (queue.map (fun q => dgetD dist q 0)).Pairwise (fun a b => a ≤ b)
  twoLevel : ∀ x ∈ queue, ∀ y ∈ queue,
    dgetD dist x 0 ≤ dgetD dist y 0 + 1
  distBound : ∀ w ∈ dkeys dist, ∀ q ∈ queue,
    dgetD dist w 0 ≤ dgetD dist q 0 + 1
  processed : ∀ k ∈ dkeys dist, k ∉ queue →
    ∀ w ∈ dkeys (g.neighbors k),
      ∃ dw, dget dist w = some dw ∧ dw ≤ dgetD dist k 0 + 1

/-- A D3 link `{source, target, weight}`. -/
structure D3Link where
  source : String
  target : String
  weight : Int
deriving Repr, DecidableEq

/-- A D3 export payload `{nodes, links}` with node payload type `ν`. -/
structure D3Export (ν : Type) where
  nodes : List ν
  links : List D3Link
deriving Repr, DecidableEq

/-- A student node payload `{id, course_count}`. -/
structure D3StudentNode where
  id : String
  course_count : Int
deriving Repr, DecidableEq

/-- A course node payload `{id, enrollment}`. -/
structure D3CourseNode where
  id : String
  enrollment : Int
deriving Repr, DecidableEq

namespace CentralityService

/-- `get_student_network_d3(students, min_edge_weight=2)`. -/
def get_student_network_d3 (students : List Student)
    (min_edge_weight : Int := 2) : D3Export D3StudentNode :=
  let G := build_student_network students
  let links := ((G.edges.filter (fun e => min_edge_weight ≤ e.2.2)).map
    (fun e => D3Link.mk e.1 e.2.1 e.2.2))
  let nodes := G.nodes.map
    (fun node => D3StudentNode.mk node (G.get_node_attr node "course_count" 0))
  ⟨nodes, links⟩

/-- `get_course_network_d3(students, min_edge_weight=3)`. -/
def get_course_network_d3 (students : List Student)
    (min_edge_weight : Int := 3) : D3Export D3CourseNode :=
  let G := build_course_network students
  let links := ((G.edges.filter (fun e => min_edge_weight ≤ e.2.2)).map
    (fun e => D3Link.mk e.1 e.2.1 e.2.2))
  let nodes := G.nodes.map
    (fun node => D3CourseNode.mk node (G.get_node_attr node "enrollment" 0))
  ⟨nodes, links⟩

end CentralityService

/-! ### Association-list (Python dict) lemmas -/

theorem dget_eq_none_of_not_mem [DecidableEq κ] {d : List (κ × α)} {k : κ}
    (h : k ∉ dkeys d) : dget d k = none := by
  induction d with
  | nil => rfl
  | cons p rest ih =>
    obtain ⟨k1, v⟩ := p
    simp only [dkeys, List.map_cons, List.mem_cons, not_or] at h
    rw [dget, if_neg (fun hh : k1 = k => h.1 hh.symm)]
    exact ih (by simpa [dkeys] using h.2)

theorem dget_isSome_of_mem [DecidableEq κ] {d : List (κ × α)} {k : κ}
    (h : k ∈ dkeys d) : (dget d k).isSome := by
  induction d with
  | nil => simp [dkeys] at h
  | cons p rest ih =>
    obtain ⟨k1, v⟩ := p
    by_cases hk : k1 = k
    · simp [dget, hk]
    · simp only [dkeys, List.map_cons, List.mem_cons] at h
      rcases h with h | h
      · exact absurd h.symm hk
      · simpa [dget, hk] using ih (by simpa [dkeys] using h)

theorem mem_dkeys_of_dget_eq_some [DecidableEq κ] {d : List (κ × α)} {k : κ}
    {v : α} (h : dget d k = some v) : k ∈ dkeys d := by
  by_contra hk
  rw [dget_eq_none_of_not_mem hk] at h
  exact Option.noConfusion h

theorem dget_dset_self [DecidableEq κ] (d : List (κ × α)) (k : κ) (v : α) :
    dget (dset d k v) k = some v := by
  induction d with
  | nil => simp [dset, dget]
  | cons p rest ih =>
    obtain ⟨k1, v1⟩ := p
    by_cases hk : k1 = k
    · simp [dset, hk, dget]
    · simp [dset, hk, dget, ih]

theorem dget_dset_ne [DecidableEq κ] (d : List (κ × α)) (k : κ) (v : α)
    {k1 : κ} (h : k1 ≠ k) : dget (dset d k v) k1 = dget d k1 := by
  induction d with
  | nil => simp [dset, dget, Ne.symm h]
  | cons p rest ih =>
    obtain ⟨k2, v2⟩ := p
    by_cases hk : k2 = k
    · subst hk
      simp [dset, dget, Ne.symm h]
    · simp only [dset, if_neg hk, dget]
      by_cases hk1 : k2 = k1
      · simp [hk1]
      · simp [hk1, ih]

theorem dkeys_dset_of_mem [DecidableEq κ] {d : List (κ × α)} {k : κ}
    (v : α) (h : k ∈ dkeys d) : dkeys (dset d k v) = dkeys d := by
  induction d with
  | nil => simp [dkeys] at h
  | cons p rest ih =>
    obtain ⟨k1, v1⟩ := p
    by_cases hk : k1 = k
    · simp [dset, hk, dkeys]
    · have h2 : k ∈ dkeys rest := by
        simp only [dkeys, List.map_cons, List.mem_cons] at h
        rcases h with h | h
        · exact absurd h.symm hk
        · simpa [dkeys] using h
      have h3 := ih h2
      simp only [dset, if_neg hk, dkeys, List.map_cons] at h3 ⊢
      rw [h3]

theorem dkeys_dset_of_not_mem [DecidableEq κ] {d : List (κ × α)} {k : κ}
    (v : α) (h : k ∉ dkeys d) : dkeys (dset d k v) = dkeys d ++ [k] := by
  induction d with
  | nil => simp [dset, dkeys]
  | cons p rest ih =>
    obtain ⟨k1, v1⟩ := p
    simp only [dkeys, List.map_cons, List.mem_cons, not_or] at h
    have hk : ¬ k1 = k := fun hh => h.1 hh.symm
    have h3 := ih (by simpa [dkeys] using h.2)
    simp only [dset, if_neg hk, dkeys, List.map_cons] at h3 ⊢
    rw [h3]
    simp

theorem dkeys_dset_sub [DecidableEq κ] {d : List (κ × α)} {k k1 : κ} {v : α}
    (h : k1 ∈ dkeys (dset d k v)) : k1 ∈ dkeys d ∨ k1 = k := by
  by_cases hk : k ∈ dkeys d
  · rw [dkeys_dset_of_mem v hk] at h; exact Or.inl h
  · rw [dkeys_dset_of_not_mem v hk] at h
    simpa using h

theorem mem_dkeys_dset_self [DecidableEq κ] (d : List (κ × α)) (k : κ)
    (v : α) : k ∈ dkeys (dset d k v) := by
  by_cases hk : k ∈ dkeys d
  · rwa [dkeys_dset_of_mem v hk]
  · rw [dkeys_dset_of_not_mem v hk]; simp

theorem mem_dkeys_dset_of_mem [DecidableEq κ] {d : List (κ × α)} {k1 : κ}
    (k : κ) (v : α) (h : k1 ∈ dkeys d) : k1 ∈ dkeys (dset d k v) := by
  by_cases hk : k ∈ dkeys d
  · rwa [dkeys_dset_of_mem v hk]
  · rw [dkeys_dset_of_not_mem v hk]; simp [h]

theorem dkeys_dset_nodup [DecidableEq κ] {d : List (κ × α)} (k : κ) (v : α)
    (h : (dkeys d).Nodup) : (dkeys (dset d k v)).Nodup := by
  by_cases hk : k ∈ dkeys d
  · rwa [dkeys_dset_of_mem v hk]
  · rw [dkeys_dset_of_not_mem v hk]
    simpa [List.nodup_append] using ⟨h, hk⟩

theorem dget_append_of_not_mem [DecidableEq κ] {d : List (κ × α)} {k : κ}
    (e : List (κ × α)) (h : k ∉ dkeys d) : dget (d ++ e) k = dget e k := by
  induction d with
  | nil => rfl
  | cons p rest ih =>
    obtain ⟨k1, v⟩ := p
    simp only [dkeys, List.map_cons, List.mem_cons, not_or] at h
    rw [List.cons_append, dget, if_neg (fun hh : k1 = k => h.1 hh.symm)]
    exact ih (by simpa [dkeys] using h.2)

theorem dget_append_of_mem [DecidableEq κ] {d : List (κ × α)} {k : κ}
    (e : List (κ × α)) (h : k ∈ dkeys d) : dget (d ++ e) k = dget d k := by
  induction d with
  | nil => simp [dkeys] at h
  | cons p rest ih =>
    obtain ⟨k1, v⟩ := p
    by_cases hk : k1 = k
    · simp [dget, hk]
    · have h2 : k ∈ dkeys rest := by
        simp only [dkeys, List.map_cons, List.mem_cons] at h
        rcases h with h | h
        · exact absurd h.symm hk
        · simpa [dkeys] using h
      simp [dget, hk, ih h2]

theorem dset_dset_self [DecidableEq κ] (d : List (κ × α)) (k : κ)
    (v v2 : α) : dset (dset d k v) k v2 = dset d k v2 := by
  induction d with
  | nil => simp [dset]
  | cons p rest ih =>
    obtain ⟨k1, v1⟩ := p
    by_cases hk : k1 = k
    · simp [dset, hk]
    · simp [dset, hk, ih]

theorem mem_of_mem_dset [DecidableEq κ] {d : List (κ × α)} {k : κ} {v : α}
    {p : κ × α} (h : p ∈ dset d k v) : p = (k, v) ∨ p ∈ d := by
  induction d with
  | nil => simpa [dset] using h
  | cons q rest ih =>
    obtain ⟨k1, v1⟩ := q
    by_cases hk : k1 = k
    · simp only [dset, if_pos hk, List.mem_cons] at h
      rcases h with h | h
      · exact Or.inl h
      · exact Or.inr (List.mem_cons_of_mem _ h)
    · simp only [dset, if_neg hk, List.mem_cons] at h
      rcases h with h | h
      · exact Or.inr (by simp [h])
      · rcases ih h with h | h
        · exact Or.inl h
        · exact Or.inr (List.mem_cons_of_mem _ h)

theorem dget_eq_some_of_mem [DecidableEq κ] {d : List (κ × α)} {k : κ}
    {v : α} (hnd : (dkeys d).Nodup) (h : (k, v) ∈ d) : dget d k = some v := by
  induction d with
  | nil => simp at h
  | cons q rest ih =>
    obtain ⟨k1, v1⟩ := q
    simp only [dkeys, List.map_cons, List.nodup_cons] at hnd
    rcases List.mem_cons.mp h with h | h
    · have hk : k = k1 := congrArg Prod.fst h
      have hv : v = v1 := congrArg Prod.snd h
      subst hk
      subst hv
      simp [dget]
    · have hk : k1 ≠ k := fun hh =>
        hnd.1 (hh.symm ▸ List.mem_map.mpr ⟨(k, v), h, rfl⟩)
      simp [dget, hk, ih hnd.2 h]

/-! ### Graph operation invariants -/

theorem wf_empty : PyGraphWF PyGraph.empty := by
  refine ⟨by simp [PyGraph.empty, dkeys], by simp [PyGraph.empty], ?_, ?_⟩
  · intro u v
    simp [PyGraph.neighbors, PyGraph.empty, dgetD, dget]
  · simp [PyGraph.empty]

theorem neighbors_add_node (g : PyGraph) (node : String)
    (attrs : List (String × Int)) (x : String) :
    (g.add_node node attrs).neighbors x =
      if x = node ∧ node ∉ dkeys g.adj then [] else g.neighbors x := by
  unfold PyGraph.add_node PyGraph.neighbors
  by_cases hmem : node ∈ dkeys g.adj
  · simp [hmem]
  · simp only [hmem, if_neg (by simp [hmem] : ¬(node ∈ dkeys g.adj))]
    by_cases hx : x = node
    · subst hx
      simp [dgetD, dget_append_of_not_mem _ hmem, hmem, dget]
    · by_cases hxg : x ∈ dkeys g.adj
      · simp [dgetD, dget_append_of_mem _ hxg, hx, hmem]
      · have hxn : ¬ node = x := fun hh => hx hh.symm
        simp [dgetD, dget_append_of_not_mem _ hxg, dget, hx, hxn, hmem,
          dget_eq_none_of_not_mem hxg]

theorem mem_of_dget_eq_some [DecidableEq κ] {d : List (κ × α)} {k : κ}
    {v : α} (h : dget d k = some v) : (k, v) ∈ d := by
  induction d with
  | nil => simp [dget] at h
  | cons p rest ih =>
    obtain ⟨k1, v1⟩ := p
    by_cases hk : k1 = k
    · subst hk
      rw [dget, if_pos rfl] at h
      have hv : v1 = v := Option.some.inj h
      subst hv
      exact List.mem_cons_self _ _
    · simp only [dget, if_neg hk] at h
      exact List.mem_cons_of_mem _ (ih h)

theorem neighbors_add_edge (g : PyGraph) (u v : String) (w : Int)
    (x : String) :
    (g.add_edge u v w).neighbors x =
      if x = v then
        dset (if v = u then dset (g.neighbors u) v w else g.neighbors v) u w
      else if x = u then dset (g.neighbors u) v w
      else g.neighbors x := by
  simp only [PyGraph.add_edge, PyGraph.neighbors]
  by_cases hxv : x = v
  · subst hxv
    rw [if_pos rfl]
    simp only [dgetD, dget_dset_self, Option.getD_some]
    by_cases hvu : x = u
    · subst hvu
      simp [dget_dset_self, dgetD]
    · rw [if_neg hvu, dget_dset_ne _ _ _ hvu]
  · rw [if_neg hxv, dgetD, dget_dset_ne _ _ _ hxv]
    by_cases hxu : x = u
    · subst hxu
      simp [dget_dset_self, dgetD]
    · rw [dget_dset_ne _ _ _ hxu, if_neg hxu]
      rfl

theorem dget_neighbors_add_edge (g : PyGraph) (u v : String) (w : Int)
    (x y : String) :
    dget ((g.add_edge u v w).neighbors x) y =
      if (x = u ∧ y = v) ∨ (x = v ∧ y = u) then some w
      else dget (g.neighbors x) y := by
  rw [neighbors_add_edge]
  by_cases hxv : x = v
  · subst hxv
    rw [if_pos rfl]
    by_cases hyu : y = u
    · subst hyu
      simp [dget_dset_self]
    · rw [dget_dset_ne _ _ _ hyu]
      by_cases hvu : x = u
      · subst hvu
        rw [if_pos rfl, dget_dset_ne _ _ _ hyu, if_neg (by tauto)]
      · rw [if_neg hvu, if_neg (by tauto)]
  · rw [if_neg hxv]
    by_cases hxu : x = u
    · subst hxu
      rw [if_pos rfl]
      by_cases hyv : y = v
      · subst hyv
        simp [dget_dset_self]
      · rw [dget_dset_ne _ _ _ hyv, if_neg (by tauto)]
    · rw [if_neg hxu, if_neg (by tauto)]

theorem neighbors_row_nodup {g : PyGraph} (hwf : PyGraphWF g)
    (x : String) : (dkeys (g.neighbors x)).Nodup := by
  unfold PyGraph.neighbors dgetD
  cases hrow : dget g.adj x with
  | none => simp [dkeys]
  | some row =>
    simpa using hwf.2.1 (x, row) (mem_of_dget_eq_some hrow)

theorem wf_add_node {g : PyGraph} (hwf : PyGraphWF g) (node : String)
    (attrs : List (String × Int)) : PyGraphWF (g.add_node node attrs) := by
  obtain ⟨hnd, hrows, hsym, hattrs⟩ := hwf
  refine ⟨?_, ?_, ?_, ?_⟩
  · simp only [PyGraph.add_node]
    by_cases hmem : node ∈ dkeys g.adj
    · rw [if_pos hmem]
      exact hnd
    · rw [if_neg hmem]
      have hkeys : dkeys (g.adj ++ [(node, ([] : List (String × Int)))]) =
          dkeys g.adj ++ [node] := by simp [dkeys]
      rw [hkeys]
      exact hnd.append (by simp)
        (fun a ha hb => hmem ((List.mem_singleton.mp hb) ▸ ha))
  · intro p hp
    simp only [PyGraph.add_node] at hp
    by_cases hmem : node ∈ dkeys g.adj
    · exact hrows p (by simpa [hmem] using hp)
    · rw [if_neg hmem] at hp
      rcases List.mem_append.mp hp with hp | hp
      · exact hrows p hp
      · simp only [List.mem_singleton] at hp
        subst hp
        simp [dkeys]
  · intro a b
    rw [neighbors_add_node, neighbors_add_node]
    by_cases ha : a = node ∧ node ∉ dkeys g.adj
    · rcases ha with ⟨rfl, hfresh⟩
      rw [if_pos ⟨rfl, hfresh⟩]
      by_cases hb : b = a ∧ a ∉ dkeys g.adj
      · rw [if_pos hb]
        simp [dget]
      · rw [if_neg hb, hsym b a, PyGraph.neighbors, dgetD,
          dget_eq_none_of_not_mem hfresh]
        simp [dget]
    · rw [if_neg ha]
      by_cases hb : b = node ∧ node ∉ dkeys g.adj
      · rcases hb with ⟨rfl, hfresh⟩
        rw [if_pos ⟨rfl, hfresh⟩, hsym a b, PyGraph.neighbors, dgetD,
          dget_eq_none_of_not_mem hfresh]
        simp [dget]
      · rw [if_neg hb]
        exact hsym a b
  · simp only [PyGraph.add_node]
    by_cases hmem : node ∈ dkeys g.adj
    · rw [if_pos hmem, dkeys_dset_of_mem attrs (hattrs ▸ hmem), hattrs]
    · rw [if_neg hmem, dkeys_dset_of_not_mem attrs (hattrs ▸ hmem), hattrs]
      simp [dkeys]

theorem dkeys_dset_eq [DecidableEq κ] (d : List (κ × α)) (k : κ) (v : α) :
    dkeys (dset d k v) =
      if k ∈ dkeys d then dkeys d else dkeys d ++ [k] := by
  by_cases hk : k ∈ dkeys d
  · rw [if_pos hk, dkeys_dset_of_mem v hk]
  · rw [if_neg hk, dkeys_dset_of_not_mem v hk]

theorem wf_add_edge {g : PyGraph} (hwf : PyGraphWF g) (u v : String)
    (w : Int) : PyGraphWF (g.add_edge u v w) := by
  refine ⟨?_, ?_, ?_, ?_⟩
  · simp only [PyGraph.add_edge]
    exact dkeys_dset_nodup _ _ (dkeys_dset_nodup _ _ hwf.1)
  · intro p hp
    simp only [PyGraph.add_edge] at hp
    have hru : (dkeys (dset (dgetD g.adj u []) v w)).Nodup :=
      dkeys_dset_nodup _ _ (neighbors_row_nodup hwf u)
    rcases mem_of_mem_dset hp with hp | hp
    · subst hp
      refine dkeys_dset_nodup _ _ ?_
      unfold dgetD
      by_cases hvu : v = u
      · subst hvu
        rw [dget_dset_self]
        exact hru
      · rw [dget_dset_ne _ _ _ hvu]
        cases hr : dget g.adj v with
        | none => simp [dkeys]
        | some row => simpa using hwf.2.1 (v, row) (mem_of_dget_eq_some hr)
    · rcases mem_of_mem_dset hp with hp | hp
      · subst hp
        exact hru
      · exact hwf.2.1 p hp
  · intro a b
    rw [dget_neighbors_add_edge, dget_neighbors_add_edge]
    by_cases hc : (a = u ∧ b = v) ∨ (a = v ∧ b = u)
    · rw [if_pos hc, if_pos (by tauto)]
    · rw [if_neg hc, if_neg (by tauto), hwf.2.2.1 a b]
  · have hattrs := hwf.2.2.2
    simp only [PyGraph.add_edge]
    have hN1 : dkeys (if u ∈ dkeys g.node_attrs then g.node_attrs
        else g.node_attrs ++ [(u, ([] : List (String × Int)))]) =
        dkeys (dset g.adj u (dset (dgetD g.adj u []) v w)) := by
      rw [dkeys_dset_eq, hattrs]
      by_cases hu : u ∈ dkeys g.adj
      · rw [if_pos hu, if_pos hu, hattrs]
      · rw [if_neg hu, if_neg hu]
        have h2 : dkeys (g.node_attrs ++ [(u, ([] : List (String × Int)))]) =
            dkeys g.node_attrs ++ [u] := by simp [dkeys]
        rw [h2, hattrs]
    rw [dkeys_dset_eq]
    by_cases hv : v ∈ dkeys (dset g.adj u (dset (dgetD g.adj u []) v w))
    · rw [if_pos hv, if_pos (hN1.symm ▸ hv), hN1]
    · rw [if_neg hv, if_neg (hN1.symm ▸ hv)]
      simp [dkeys, hN1]
      have := congrArg (fun l => l ++ [v]) hN1
      simpa [dkeys] using this

theorem wf_applyOp {g : PyGraph} (hwf : PyGraphWF g) (op : GraphOp) :
    PyGraphWF (applyOp g op) := by
  cases op with
  | addNode node attrs => exact wf_add_node hwf node attrs
  | addEdge u v w => exact wf_add_edge hwf u v w

theorem wf_foldl_applyOp {g : PyGraph} (hwf : PyGraphWF g)
    (ops : List GraphOp) : PyGraphWF (ops.foldl applyOp g) := by
  induction ops generalizing g with
  | nil => exact hwf
  | cons op rest ih => exact ih (wf_applyOp hwf op)

theorem wf_applyOps (ops : List GraphOp) : PyGraphWF (applyOps ops) :=
  wf_foldl_applyOp wf_empty ops

/-! ### Excluded-course degenerate record sets (claim C6) -/

theorem enroll_inner_excluded :
    ∀ (cs : List String) (m : List (String × Int)),
      (∀ c ∈ cs, c = CentralityService.EXCLUDED_COURSE) →
      cs.foldl (fun m course =>
        if course ≠ CentralityService.EXCLUDED_COURSE then
          dset m course (dgetD m course 0 + 1) else m) m = m
  | [], _, _ => rfl
  | c :: rest, m, h => by
    rw [List.foldl_cons, if_neg (by simp [h c (List.mem_cons_self _ _)])]
    exact enroll_inner_excluded rest m
      (fun c1 hc1 => h c1 (List.mem_cons_of_mem _ hc1))

theorem enroll_outer_excluded :
    ∀ (ss : List Student) (m : List (String × Int)),
      (∀ s ∈ ss, ∀ c ∈ s.courses, c = CentralityService.EXCLUDED_COURSE) →
      ss.foldl (fun m s =>
        s.courses.foldl (fun m course =>
          if course ≠ CentralityService.EXCLUDED_COURSE then
            dset m course (dgetD m course 0 + 1) else m) m) m = m
  | [], _, _ => rfl
  | s :: rest, m, h => by
    rw [List.foldl_cons,
      enroll_inner_excluded s.courses m (h s (List.mem_cons_self _ _))]
    exact enroll_outer_excluded rest m
      (fun s1 hs1 => h s1 (List.mem_cons_of_mem _ hs1))

theorem courseEnrollment_all_excluded (students : List Student)
    (h : ∀ s ∈ students, ∀ c ∈ s.courses,
      c = CentralityService.EXCLUDED_COURSE) :
    CentralityService.courseEnrollment students = [] :=
  enroll_outer_excluded students [] h

theorem scm_outer_excluded :
    ∀ (ss : List Student) (m : List (String × List String)),
      (∀ s ∈ ss, ∀ c ∈ s.courses, c = CentralityService.EXCLUDED_COURSE) →
      ss.foldl (fun m s =>
        let filtered := s.courses.filter
          (fun c => c ≠ CentralityService.EXCLUDED_COURSE)
        if filtered ≠ [] then dset m s.id filtered else m) m = m
  | [], _, _ => rfl
  | s :: rest, m, h => by
    rw [List.foldl_cons]
    have hfil : s.courses.filter
        (fun c => c ≠ CentralityService.EXCLUDED_COURSE) = [] := by
      rw [List.filter_eq_nil_iff]
      intro c hc
      simp [h s (List.mem_cons_self _ _) c hc]
    simp only [hfil, ne_eq, not_true_eq_false, if_neg, ite_self]
    rw [if_neg (by simp)]
    exact scm_outer_excluded rest m
      (fun s1 hs1 => h s1 (List.mem_cons_of_mem _ hs1))

theorem studentCoursesMap_all_excluded (students : List Student)
    (h : ∀ s ∈ students, ∀ c ∈ s.courses,
      c = CentralityService.EXCLUDED_COURSE) :
    CentralityService.studentCoursesMap students = [] :=
  scm_outer_excluded students [] h

theorem build_course_network_all_excluded (students : List Student)
    (h : ∀ s ∈ students, ∀ c ∈ s.courses,
      c = CentralityService.EXCLUDED_COURSE) :
    CentralityService.build_course_network students = PyGraph.empty := by
  unfold CentralityService.build_course_network
  rw [courseEnrollment_all_excluded students h,
    studentCoursesMap_all_excluded students h]
  rfl

/-- C6: on the two-student demo input the student network has exactly the
nodes A1111 and B2222 with one edge of weight 1; the course network has
exactly the nodes PSYC 210 (enrollment 2) and ECON 101 (enrollment 1) with
one edge of weight 1; and any record set whose every listed course is
"SOCI 101" yields a course network with zero nodes and zero edges. -/
theorem claim_C6_scenario :
    (CentralityService.build_student_network demoStudents).nodes =
      ["A1111", "B2222"] ∧
    (CentralityService.build_student_network demoStudents).edges =
      [("A1111", "B2222", 1)] ∧
    (CentralityService.build_course_network demoStudents).nodes =
      ["PSYC 210", "ECON 101"] ∧
    (CentralityService.build_course_network demoStudents).get_node_attr
      "PSYC 210" "enrollment" 0 = 2 ∧
    (CentralityService.build_course_network demoStudents).get_node_attr
      "ECON 101" "enrollment" 0 = 1 ∧
    (CentralityService.build_course_network demoStudents).edges =
      [("PSYC 210", "ECON 101", 1)] ∧
    ∀ students : List Student,
      (∀ s ∈ students, ∀ c ∈ s.courses, c = "SOCI 101") →
      (CentralityService.build_course_network students).nodes = [] ∧
      (CentralityService.build_course_network students).edges = [] := by
  refine ⟨by decide, by decide, by decide, by decide, by decide, by decide,
    ?_⟩
  intro students h
  rw [build_course_network_all_excluded students h]
  exact ⟨rfl, rfl⟩

/-- Witness for C6: the all-excluded branch evaluated on a concrete
one-student record set. -/
theorem claim_C6_scenario_witness :
    (CentralityService.build_course_network
      [⟨"C3333", ["SOCI 101"]⟩]).nodes = [] ∧
    (CentralityService.build_course_network
      [⟨"C3333", ["SOCI 101"]⟩]).edges = [] :=
  claim_C6_scenario.2.2.2.2.2.2 [⟨"C3333", ["SOCI 101"]⟩] (by decide)

/-! ### Query behaviour on missing nodes (claims C9, C10) -/

/-- C9: on every reachable graph state, looking up an id that is not a
node yields the empty neighbor mapping and the caller-supplied attribute
default.  All six query methods (`nodes`, `edges`, `neighbors`,
`get_node_attr`, `num_nodes`, `num_edges`) are embedded as pure functions
of the graph because their Python bodies perform only non-mutating reads
(`dict.get`, key iteration); in this embedding they cannot change the node
set, edge set, weights or attributes. -/
theorem claim_C9_missing_lookups :
    ∀ (ops : List GraphOp) (node attr : String) (dflt : Int),
      node ∉ (applyOps ops).nodes →
      (applyOps ops).neighbors node = [] ∧
      (applyOps ops).get_node_attr node attr dflt = dflt := by
  intro ops node attr dflt hnode
  have hwf := wf_applyOps ops
  constructor
  · unfold PyGraph.neighbors dgetD
    rw [dget_eq_none_of_not_mem hnode]
    rfl
  · unfold PyGraph.get_node_attr dgetD
    have hattr : node ∉ dkeys (applyOps ops).node_attrs := by
      rw [hwf.2.2.2]
      exact hnode
    rw [dget_eq_none_of_not_mem hattr]
    simp [dget]

/-- Witness for C9 at a concrete reachable graph and missing id. -/
theorem claim_C9_missing_lookups_witness :
    (applyOps [GraphOp.addEdge "a" "b" 5]).neighbors "zz" = [] ∧
    (applyOps [GraphOp.addEdge "a" "b" 5]).get_node_attr "zz" "enrollment"
      7 = 7 :=
  claim_C9_missing_lookups [GraphOp.addEdge "a" "b" 5] "zz" "enrollment" 7
    (by decide)

theorem bfsLoop_nil_queue (g : PyGraph) (fuel : Nat)
    (dist : List (String × Nat)) : bfsLoop g fuel dist [] = dist := by
  cases fuel <;> rfl

theorem bfsVisit_fst_append (dnode : Nat) :
    ∀ (nbs : List String) (dist : List (String × Nat))
      (queue : List String),
      ∃ ext, (bfsVisit dnode nbs dist queue).1 = dist ++ ext
  | [], dist, queue => ⟨[], by simp [bfsVisit]⟩
  | nb :: rest, dist, queue => by
    by_cases hmem : nb ∈ dkeys dist
    · obtain ⟨ext, hext⟩ := bfsVisit_fst_append dnode rest dist queue
      exact ⟨ext, by rw [bfsVisit, if_pos hmem]; exact hext⟩
    · obtain ⟨ext, hext⟩ := bfsVisit_fst_append dnode rest
        (dist ++ [(nb, dnode + 1)]) (queue ++ [nb])
      refine ⟨(nb, dnode + 1) :: ext, ?_⟩
      rw [bfsVisit, if_neg hmem, hext, List.append_assoc]
      rfl

theorem bfsLoop_fst_append (g : PyGraph) :
    ∀ (fuel : Nat) (dist : List (String × Nat)) (queue : List String),
      ∃ ext, bfsLoop g fuel dist queue = dist ++ ext
  | 0, dist, _ => ⟨[], by simp [bfsLoop]⟩
  | fuel + 1, dist, [] => ⟨[], by simp [bfsLoop]⟩
  | fuel + 1, dist, node :: queue => by
    obtain ⟨ext1, hext1⟩ := bfsVisit_fst_append (dgetD dist node 0)
      ((g.neighbors node).map Prod.fst) dist queue
    obtain ⟨ext2, hext2⟩ := bfsLoop_fst_append g fuel
      (bfsVisit (dgetD dist node 0) ((g.neighbors node).map Prod.fst)
        dist queue).1
      (bfsVisit (dgetD dist node 0) ((g.neighbors node).map Prod.fst)
        dist queue).2
    refine ⟨ext1 ++ ext2, ?_⟩
    rw [bfsLoop, hext2, hext1, List.append_assoc]

theorem bfs_fst_entry (g : PyGraph) (source : String) :
    ∃ ext, bfs_shortest_paths g source = (source, 0) :: ext := by
  obtain ⟨ext, hext⟩ := bfsLoop_fst_append g (adjSize g + 1)
    [(source, 0)] [source]
  exact ⟨ext, by simpa using hext⟩

/-- C10: BFS always reports the source itself at distance 0 — the result
dict's first binding is `(source, 0)` — and for a source that is not a
node of the graph the result is exactly the singleton mapping, with no
failure. -/
theorem claim_C10_bfs_source :
    ∀ (g : PyGraph) (source : String),
      dget (bfs_shortest_paths g source) source = some 0 ∧
      (source ∉ g.nodes →
        bfs_shortest_paths g source = [(source, 0)]) := by
  intro g source
  constructor
  · obtain ⟨ext, hext⟩ := bfs_fst_entry g source
    rw [hext, dget, if_pos rfl]
  · intro hsrc
    have hn : (g.neighbors source).map Prod.fst = [] := by
      unfold PyGraph.neighbors dgetD
      rw [dget_eq_none_of_not_mem hsrc]
      rfl
    unfold bfs_shortest_paths
    rw [bfsLoop, hn]
    exact bfsLoop_nil_queue g _ _

/-- Witness for C10's missing-source branch at a concrete graph. -/
theorem claim_C10_bfs_source_witness :
    bfs_shortest_paths (applyOps [GraphOp.addEdge "a" "b" 1]) "zz" =
      [("zz", 0)] :=
  (claim_C10_bfs_source (applyOps [GraphOp.addEdge "a" "b" 1]) "zz").2
    (by decide)

/-! ### D3 exports (claim C8) -/

/-- C8: for every student list and threshold both exports emit every node
of the freshly built graph (the id projection of the emitted nodes is the
graph's node list) and exactly the edges whose weight reaches the
threshold; in particular on the demo input, whose single student edge has
weight 1, the default threshold 2 keeps all nodes and no links (and the
default course threshold 3 likewise filters the single weight-1 course
edge). -/
theorem claim_C8_exports :
    (∀ (students : List Student) (minw : Int),
      ((CentralityService.get_student_network_d3 students minw).nodes.map
          D3StudentNode.id =
        (CentralityService.build_student_network students).nodes) ∧
      ((CentralityService.get_student_network_d3 students minw).links =
        ((CentralityService.build_student_network students).edges.filter
          (fun e => minw ≤ e.2.2)).map
          (fun e => D3Link.mk e.1 e.2.1 e.2.2)) ∧
      ((CentralityService.get_course_network_d3 students minw).nodes.map
          D3CourseNode.id =
        (CentralityService.build_course_network students).nodes) ∧
      ((CentralityService.get_course_network_d3 students minw).links =
        ((CentralityService.build_course_network students).edges.filter
          (fun e => minw ≤ e.2.2)).map
          (fun e => D3Link.mk e.1 e.2.1 e.2.2))) ∧
    (CentralityService.get_student_network_d3 demoStudents).nodes.map
      D3StudentNode.id = ["A1111", "B2222"] ∧
    (CentralityService.get_student_network_d3 demoStudents).links = [] ∧
    (CentralityService.get_course_network_d3 demoStudents).links = [] := by
  refine ⟨?_, by decide, by decide, by decide⟩
  intro students minw
  refine ⟨?_, rfl, ?_, rfl⟩
  · simp [CentralityService.get_student_network_d3, List.map_map,
      Function.comp_def]
  · simp [CentralityService.get_course_network_d3, List.map_map,
      Function.comp_def]

/-! ### Characterising `edges()` through the `seen` mechanism -/

theorem mem_dkeys_iff_isSome [DecidableEq κ] {d : List (κ × α)} {k : κ} :
    k ∈ dkeys d ↔ (dget d k).isSome := by
  constructor
  · exact dget_isSome_of_mem
  · intro h
    cases hg : dget d k with
    | none => rw [hg] at h; simp at h
    | some v => exact mem_dkeys_of_dget_eq_some hg

theorem edgesInner_fst (u : String) :
    ∀ (row : List (String × Int)) (seen : List (String × String)),
      (dkeys row).Nodup →
      (edgesInner u row seen).1 =
        (row.filter (fun p => (p.1, u) ∉ seen)).map
          (fun p => (u, p.1, p.2))
  | [], _, _ => rfl
  | (b, w) :: rest, seen, hnd => by
    have hnd1 : b ∉ List.map Prod.fst rest ∧
        (List.map Prod.fst rest).Nodup :=
      List.nodup_cons.mp (by simpa only [dkeys, List.map_cons] using hnd)
    have hnd2 : (dkeys rest).Nodup := hnd1.2
    have hbrest : b ∉ dkeys rest := hnd1.1
    have hcong : ∀ seen2 : List (String × String),
        ((b, u) ∉ seen2) →
        rest.filter (fun p => decide ((p.1, u) ∉ (u, b) :: seen2)) =
          rest.filter (fun p => decide ((p.1, u) ∉ seen2)) := by
      intro seen2 _
      refine List.filter_congr ?_
      intro p hp
      simp only [decide_eq_decide, List.mem_cons, not_or]
      constructor
      · intro hh
        exact hh.2
      · intro hh
        refine ⟨?_, hh⟩
        intro heq
        have hp1 : p.1 = u := congrArg Prod.fst heq
        have hub : u = b := congrArg Prod.snd heq
        exact hbrest (hub ▸ hp1 ▸ List.mem_map.mpr ⟨p, hp, rfl⟩)
    by_cases hmem : (b, u) ∈ seen
    · rw [edgesInner, if_pos hmem,
        List.filter_cons_of_neg (by simp [hmem])]
      exact edgesInner_fst u rest seen hnd2
    · rw [edgesInner, if_neg hmem]
      have ih := edgesInner_fst u rest ((u, b) :: seen) hnd2
      show (u, b, w) :: (edgesInner u rest ((u, b) :: seen)).1 = _
      rw [ih, List.filter_cons_of_pos (by simp [hmem]), List.map_cons]
      rw [hcong seen hmem]

theorem edgesInner_snd (u : String) :
    ∀ (row : List (String × Int)) (seen : List (String × String))
      (q : String × String),
      (dkeys row).Nodup →
      (q ∈ (edgesInner u row seen).2 ↔ q ∈ seen ∨
        q ∈ (row.filter (fun p => (p.1, u) ∉ seen)).map
          (fun p => ((u, p.1) : String × String)))
  | [], _, q, _ => by simp [edgesInner]
  | (b, w) :: rest, seen, q, hnd => by
    have hnd1 : b ∉ List.map Prod.fst rest ∧
        (List.map Prod.fst rest).Nodup :=
      List.nodup_cons.mp (by simpa only [dkeys, List.map_cons] using hnd)
    have hnd2 : (dkeys rest).Nodup := hnd1.2
    have hbrest : b ∉ dkeys rest := hnd1.1
    have hcong : rest.filter (fun p => decide ((p.1, u) ∉ (u, b) :: seen)) =
        rest.filter (fun p => decide ((p.1, u) ∉ seen)) := by
      refine List.filter_congr ?_
      intro p hp
      simp only [decide_eq_decide, List.mem_cons, not_or]
      constructor
      · intro hh
        exact hh.2
      · intro hh
        refine ⟨?_, hh⟩
        intro heq
        have hp1 : p.1 = u := congrArg Prod.fst heq
        have hub : u = b := congrArg Prod.snd heq
        exact hbrest (hub ▸ hp1 ▸ List.mem_map.mpr ⟨p, hp, rfl⟩)
    by_cases hmem : (b, u) ∈ seen
    · rw [edgesInner, if_pos hmem,
        List.filter_cons_of_neg (by simp [hmem])]
      exact edgesInner_snd u rest seen q hnd2
    · rw [edgesInner, if_neg hmem]
      have ih := edgesInner_snd u rest ((u, b) :: seen) q hnd2
      rw [hcong] at ih
      show q ∈ (edgesInner u rest ((u, b) :: seen)).2 ↔ _
      rw [ih, List.filter_cons_of_pos (by simp [hmem]), List.map_cons]
      simp only [List.mem_cons]
      tauto

theorem edgesOuter_spec (g : PyGraph)
    (hsym : ∀ a b, dget (g.neighbors a) b = dget (g.neighbors b) a) :
    ∀ (rows : List (String × List (String × Int))) (prior : List String)
      (seen : List (String × String)),
      (∀ p ∈ rows, dget g.adj p.1 = some p.2) →
      (prior ++ dkeys rows).Nodup →
      (∀ p ∈ rows, (dkeys p.2).Nodup) →
      (∀ a b, b ∉ prior →
        ((a, b) ∈ seen ↔ a ∈ prior ∧ b ∈ dkeys (g.neighbors a))) →
      edgesOuter rows seen = edgesSpec rows prior
  | [], _, _, _, _, _, _ => rfl
  | (u, row) :: rest, prior, seen, hrows, hnd, hrownd, hseen => by
    have hurow : g.neighbors u = row := by
      unfold PyGraph.neighbors dgetD
      rw [hrows (u, row) (List.mem_cons_self _ _)]
      rfl
    have hnd1 := hnd
    rw [show dkeys ((u, row) :: rest) = u :: dkeys rest from rfl,
      ← List.singleton_append, ← List.append_assoc] at hnd1
    have huprior : u ∉ prior := by
      have h2 : (prior ++ [u]).Nodup := hnd1.of_append_left
      intro hu
      exact (List.disjoint_of_nodup_append h2) hu (List.mem_singleton_self u)
    have hrownd0 : (dkeys row).Nodup :=
      hrownd (u, row) (List.mem_cons_self _ _)
    have hfil : row.filter (fun p => decide ((p.1, u) ∉ seen)) =
        row.filter (fun p => decide (p.1 ∉ prior)) := by
      refine List.filter_congr ?_
      intro p hp
      simp only [decide_eq_decide]
      have hnb : u ∈ dkeys (g.neighbors p.1) := by
        rw [mem_dkeys_iff_isSome, hsym p.1 u, hurow, ← mem_dkeys_iff_isSome]
        exact List.mem_map.mpr ⟨p, hp, rfl⟩
      rw [hseen p.1 u huprior]
      tauto
    show (edgesInner u row seen).1 ++ edgesOuter rest (edgesInner u row seen).2 = _
    rw [edgesInner_fst u row seen hrownd0, hfil]
    show _ = (row.filter (fun p => decide (p.1 ∉ prior))).map
        (fun p => (u, p.1, p.2)) ++ edgesSpec rest (prior ++ [u])
    congr 1
    refine edgesOuter_spec g hsym rest (prior ++ [u])
      (edgesInner u row seen).2
      (fun p hp => hrows p (List.mem_cons_of_mem _ hp))
      (by rwa [List.append_assoc, List.singleton_append])
      (fun p hp => hrownd p (List.mem_cons_of_mem _ hp))
      ?_
    intro a b hb
    have hbu : b ∉ prior := fun hh => hb (List.mem_append_left _ hh)
    have hbne : b ≠ u := fun hh =>
      hb (List.mem_append_right _ (hh ▸ List.mem_singleton_self u))
    rw [edgesInner_snd u row seen (a, b) hrownd0]
    constructor
    · intro hh
      rcases hh with hh | hh
      · rcases (hseen a b hbu).mp hh with ⟨ha, hnb⟩
        exact ⟨List.mem_append_left _ ha, hnb⟩
      · rcases List.mem_map.mp hh with ⟨p, hp, heq⟩
        have hau : a = u := (congrArg Prod.fst heq).symm
        have hbp : b = p.1 := (congrArg Prod.snd heq).symm
        refine ⟨List.mem_append_right _ (hau ▸ List.mem_singleton_self u), ?_⟩
        rw [hau, hurow, hbp]
        exact List.mem_map.mpr ⟨p, List.mem_of_mem_filter hp, rfl⟩
    · intro hh
      rcases hh with ⟨ha, hnb⟩
      rcases List.mem_append.mp ha with ha | ha
      · exact Or.inl ((hseen a b hbu).mpr ⟨ha, hnb⟩)
      · have hau : a = u := List.mem_singleton.mp ha
        rw [hau, hurow] at hnb
        rcases List.mem_map.mp hnb with ⟨p, hp, hbp⟩
        refine Or.inr (List.mem_map.mpr ⟨p, ?_, by rw [hbp, hau]⟩)
        refine List.mem_filter.mpr ⟨hp, ?_⟩
        simp only [decide_eq_true_eq]
        rw [hseen p.1 u huprior]
        intro hpp
        exact hbu (hbp ▸ hpp.1)

theorem edges_eq_edgesSpec {g : PyGraph} (hwf : PyGraphWF g) :
    g.edges = edgesSpec g.adj [] := by
  refine edgesOuter_spec g hwf.2.2.1 g.adj [] []
    (fun p hp => ?_) (by simpa using hwf.1) hwf.2.1 (by simp)
  obtain ⟨a, b⟩ := p
  exact dget_eq_some_of_mem hwf.1 hp

theorem edgesSpec_weight (g : PyGraph) :
    ∀ (rows : List (String × List (String × Int))) (prior : List String),
      (∀ p ∈ rows, dget g.adj p.1 = some p.2) →
      (∀ p ∈ rows, (dkeys p.2).Nodup) →
      ∀ e ∈ edgesSpec rows prior,
        dget (g.neighbors e.1) e.2.1 = some e.2.2 ∧ e.1 ∈ g.nodes
  | [], _, _, _ => by simp [edgesSpec]
  | (u, row) :: rest, prior, hrows, hrownd => by
    intro e he
    rcases List.mem_append.mp he with he | he
    · rcases List.mem_map.mp he with ⟨p, hp, heq⟩
      subst heq
      have hurow : g.neighbors u = row := by
        unfold PyGraph.neighbors dgetD
        rw [hrows (u, row) (List.mem_cons_self _ _)]
        rfl
      constructor
      · show dget (g.neighbors u) p.1 = some p.2
        rw [hurow]
        exact dget_eq_some_of_mem (hrownd (u, row) (List.mem_cons_self _ _))
          (by simpa using List.mem_of_mem_filter hp)
      · show u ∈ g.nodes
        exact mem_dkeys_of_dget_eq_some (hrows (u, row) (List.mem_cons_self _ _))
    · exact edgesSpec_weight g rest (prior ++ [u])
        (fun p hp => hrows p (List.mem_cons_of_mem _ hp))
        (fun p hp => hrownd p (List.mem_cons_of_mem _ hp)) e he

theorem edges_weight {g : PyGraph} (hwf : PyGraphWF g) :
    ∀ e ∈ g.edges, dget (g.neighbors e.1) e.2.1 = some e.2.2 ∧
      e.1 ∈ g.nodes ∧ e.2.1 ∈ g.nodes := by
  intro e he
  rw [edges_eq_edgesSpec hwf] at he
  obtain ⟨hw, h1⟩ := edgesSpec_weight g g.adj []
    (fun p hp => by
      obtain ⟨a, b⟩ := p
      exact dget_eq_some_of_mem hwf.1 hp) hwf.2.1 e he
  refine ⟨hw, h1, ?_⟩
  by_contra h2
  have hnone : g.neighbors e.2.1 = [] := by
    unfold PyGraph.neighbors dgetD
    rw [dget_eq_none_of_not_mem h2]
    rfl
  have hsym2 := hwf.2.2.1 e.2.1 e.1
  rw [hnone, hw] at hsym2
  simp [dget] at hsym2

theorem countP_key_nodup [DecidableEq κ] (v : κ) :
    ∀ (l : List (κ × α)), (dkeys l).Nodup →
      l.countP (fun p => decide (p.1 = v)) = if v ∈ dkeys l then 1 else 0
  | [], _ => by simp [dkeys]
  | (k, w) :: rest, hnd => by
    have hnd1 : k ∉ List.map Prod.fst rest ∧
        (List.map Prod.fst rest).Nodup :=
      List.nodup_cons.mp (by simpa only [dkeys, List.map_cons] using hnd)
    rw [List.countP_cons]
    rw [countP_key_nodup v rest hnd1.2]
    by_cases hk : k = v
    · subst hk
      have hva : k ∉ dkeys rest := hnd1.1
      have hm : k ∈ dkeys ((k, w) :: rest) := by simp [dkeys]
      rw [if_neg hva, if_pos hm]
      simp
    · have hkv : v ≠ k := fun hh => hk hh.symm
      simp [dkeys, hk]
      exact if_congr (by simp [hkv]) rfl rfl

theorem dkeys_filter_prior (prior : List String) (v : String)
    (l : List (String × Int)) :
    v ∈ dkeys (l.filter (fun p => decide (p.1 ∉ prior))) ↔
      v ∈ dkeys l ∧ v ∉ prior := by
  simp only [dkeys, List.mem_map, List.mem_filter, decide_eq_true_eq]
  constructor
  · rintro ⟨p, ⟨hp, hq⟩, rfl⟩
    exact ⟨⟨p, hp, rfl⟩, hq⟩
  · rintro ⟨⟨p, hp, rfl⟩, hq⟩
    exact ⟨p, ⟨hp, hq⟩, rfl⟩

theorem dkeys_filter_nodup (q : String × Int → Bool)
    (l : List (String × Int)) (hnd : (dkeys l).Nodup) :
    (dkeys (l.filter q)).Nodup :=
  List.Nodup.sublist (List.Sublist.map Prod.fst (List.filter_sublist l)) hnd

theorem edgesSpec_countP (g : PyGraph)
    (hsym : ∀ a b, dget (g.neighbors a) b = dget (g.neighbors b) a)
    (u v : String) (huv : u ≠ v) :
    ∀ (rows : List (String × List (String × Int))) (prior : List String),
      (∀ p ∈ rows, dget g.adj p.1 = some p.2) →
      (prior ++ dkeys rows).Nodup →
      (∀ p ∈ rows, (dkeys p.2).Nodup) →
      (edgesSpec rows prior).countP
        (fun e => decide ((e.1 = u ∧ e.2.1 = v) ∨ (e.1 = v ∧ e.2.1 = u))) =
      (if (u ∈ dkeys rows ∨ v ∈ dkeys rows) ∧ v ∈ dkeys (g.neighbors u) ∧
          u ∉ prior ∧ v ∉ prior then 1 else 0)
  | [], prior, _, _, _ => by simp [edgesSpec, dkeys]
  | (a, row) :: rest, prior, hrows, hnd, hrownd => by
    have harow : g.neighbors a = row := by
      unfold PyGraph.neighbors dgetD
      rw [hrows (a, row) (List.mem_cons_self _ _)]
      rfl
    have hnd1 := hnd
    rw [show dkeys ((a, row) :: rest) = a :: dkeys rest from rfl,
      ← List.singleton_append, ← List.append_assoc] at hnd1
    have haprior : a ∉ prior := by
      have h2 : (prior ++ [a]).Nodup := hnd1.of_append_left
      intro hu
      exact (List.disjoint_of_nodup_append h2) hu (List.mem_singleton_self a)
    have hrownd0 : (dkeys row).Nodup :=
      hrownd (a, row) (List.mem_cons_self _ _)
    have ih := edgesSpec_countP g hsym u v huv rest (prior ++ [a])
      (fun p hp => hrows p (List.mem_cons_of_mem _ hp)) hnd1
      (fun p hp => hrownd p (List.mem_cons_of_mem _ hp))
    rw [show edgesSpec ((a, row) :: rest) prior =
      (row.filter (fun p => p.1 ∉ prior)).map (fun p => (a, p.1, p.2)) ++
        edgesSpec rest (prior ++ [a]) from rfl]
    rw [List.countP_append, ih, List.countP_map]
    by_cases hau : a = u
    · subst hau
      have hhead : ((row.filter (fun p => decide (p.1 ∉ prior))).countP
          ((fun e => decide ((e.1 = a ∧ e.2.1 = v) ∨ (e.1 = v ∧ e.2.1 = a)))
            ∘ (fun p => (a, p.1, p.2)))) =
          (if v ∈ dkeys row ∧ v ∉ prior then 1 else 0) := by
        rw [List.countP_congr ?_ ]
        · rw [countP_key_nodup v _ (dkeys_filter_nodup _ _ hrownd0)]
          exact if_congr (dkeys_filter_prior prior v row) rfl rfl
        · intro p hp
          simp only [Function.comp_apply, decide_eq_true_eq]
          constructor
          · rintro (⟨_, h⟩ | ⟨h, _⟩)
            · exact h
            · exact absurd h.symm (fun hh => huv hh.symm)
          · intro h
            exact Or.inl ⟨trivial, h⟩
      rw [hhead]
      have htail : (if (a ∈ dkeys rest ∨ v ∈ dkeys rest) ∧
          v ∈ dkeys (g.neighbors a) ∧ a ∉ prior ++ [a] ∧
          v ∉ prior ++ [a] then 1 else 0) = 0 := by
        rw [if_neg]
        rintro ⟨_, _, hu2, _⟩
        exact hu2 (List.mem_append_right _ (List.mem_singleton_self a))
      rw [htail, Nat.add_zero, harow]
      refine if_congr ?_ rfl rfl
      constructor
      · rintro ⟨h1, h2⟩
        exact ⟨Or.inl (by simp [dkeys]), h1, haprior, h2⟩
      · rintro ⟨_, h1, _, h2⟩
        exact ⟨h1, h2⟩
    · by_cases hav : a = v
      · subst hav
        have hhead : ((row.filter (fun p => decide (p.1 ∉ prior))).countP
            ((fun e => decide ((e.1 = u ∧ e.2.1 = a) ∨ (e.1 = a ∧ e.2.1 = u)))
              ∘ (fun p => (a, p.1, p.2)))) =
            (if u ∈ dkeys row ∧ u ∉ prior then 1 else 0) := by
          rw [List.countP_congr ?_ ]
          · rw [countP_key_nodup u _ (dkeys_filter_nodup _ _ hrownd0)]
            exact if_congr (dkeys_filter_prior prior u row) rfl rfl
          · intro p hp
            simp only [Function.comp_apply, decide_eq_true_eq]
            constructor
            · rintro (⟨h, _⟩ | ⟨_, h⟩)
              · exact absurd h hau
              · exact h
            · intro h
              exact Or.inr ⟨trivial, h⟩
        rw [hhead]
        have htail : (if (u ∈ dkeys rest ∨ a ∈ dkeys rest) ∧
            a ∈ dkeys (g.neighbors u) ∧ u ∉ prior ++ [a] ∧
            a ∉ prior ++ [a] then 1 else 0) = 0 := by
          rw [if_neg]
          rintro ⟨_, _, _, hv2⟩
          exact hv2 (List.mem_append_right _ (List.mem_singleton_self a))
        rw [htail, Nat.add_zero]
        have hmemiff : u ∈ dkeys row ↔ a ∈ dkeys (g.neighbors u) := by
          rw [← harow, mem_dkeys_iff_isSome, mem_dkeys_iff_isSome,
            hsym a u]
        refine if_congr ?_ rfl rfl
        constructor
        · rintro ⟨h1, h2⟩
          exact ⟨Or.inr (by simp [dkeys]), hmemiff.mp h1, h2, haprior⟩
        · rintro ⟨_, h1, h2, _⟩
          exact ⟨hmemiff.mpr h1, h2⟩
      · have hhead : ((row.filter (fun p => decide (p.1 ∉ prior))).countP
            ((fun e => decide ((e.1 = u ∧ e.2.1 = v) ∨ (e.1 = v ∧ e.2.1 = u)))
              ∘ (fun p => (a, p.1, p.2)))) = 0 := by
          rw [List.countP_eq_zero]
          intro p hp
          simp only [Function.comp_apply, decide_eq_true_eq]
          rintro (⟨h, _⟩ | ⟨h, _⟩)
          · exact hau h
          · exact hav h
        rw [hhead, Nat.zero_add]
        have hua : u ≠ a := fun hh => hau hh.symm
        have hva : v ≠ a := fun hh => hav hh.symm
        have hmu : u ∈ dkeys ((a, row) :: rest) ↔ u ∈ dkeys rest := by
          simp [dkeys, hua]
        have hmv : v ∈ dkeys ((a, row) :: rest) ↔ v ∈ dkeys rest := by
          simp [dkeys, hva]
        have hpu : u ∉ prior ++ [a] ↔ u ∉ prior := by
          simp [List.mem_append, hua]
        have hpv : v ∉ prior ++ [a] ↔ v ∉ prior := by
          simp [List.mem_append, hva]
        refine if_congr ?_ rfl rfl
        rw [hmu, hmv, hpu, hpv]

theorem edges_countP {g : PyGraph} (hwf : PyGraphWF g) (u v : String)
    (huv : u ≠ v) :
    g.edges.countP
      (fun e => decide ((e.1 = u ∧ e.2.1 = v) ∨ (e.1 = v ∧ e.2.1 = u))) =
    (if v ∈ dkeys (g.neighbors u) then 1 else 0) := by
  rw [edges_eq_edgesSpec hwf,
    edgesSpec_countP g hwf.2.2.1 u v huv g.adj []
      (fun p hp => by
        obtain ⟨a, b⟩ := p
        exact dget_eq_some_of_mem hwf.1 hp)
      (by simpa using hwf.1) hwf.2.1]
  refine if_congr ?_ rfl rfl
  constructor
  · rintro ⟨_, h, _, _⟩
    exact h
  · intro h
    refine ⟨Or.inl ?_, h, by simp, by simp⟩
    by_contra hu
    have hnil : g.neighbors u = [] := by
      unfold PyGraph.neighbors dgetD
      rw [dget_eq_none_of_not_mem hu]
      rfl
    rw [hnil] at h
    simp [dkeys] at h

theorem noloop_foldl :
    ∀ (ops : List GraphOp) (g : PyGraph),
      (∀ op ∈ ops, NoLoopOp op) →
      (∀ x, dget (g.neighbors x) x = none) →
      ∀ x, dget ((ops.foldl applyOp g).neighbors x) x = none
  | [], g, _, hg => hg
  | op :: rest, g, hops, hg => by
    refine noloop_foldl rest (applyOp g op)
      (fun o ho => hops o (List.mem_cons_of_mem _ ho)) ?_
    intro x
    cases op with
    | addNode node attrs =>
      show dget ((g.add_node node attrs).neighbors x) x = none
      rw [neighbors_add_node]
      by_cases hc : x = node ∧ node ∉ dkeys g.adj
      · rw [if_pos hc]
        rfl
      · rw [if_neg hc]
        exact hg x
    | addEdge a b w =>
      have hab : a ≠ b := hops (GraphOp.addEdge a b w) (List.mem_cons_self _ _)
      show dget ((g.add_edge a b w).neighbors x) x = none
      rw [dget_neighbors_add_edge, if_neg ?_]
      · exact hg x
      · rintro (⟨h1, h2⟩ | ⟨h1, h2⟩)
        · exact hab (h1.symm.trans h2)
        · exact hab (h2.symm.trans h1)

/-- C7 (amended): after every finite sequence of `add_node`/`add_edge`
operations, stored weights are symmetric (`weight(u,v) = weight(v,u)`,
including joint absence), `edges()` yields each unordered pair of distinct
nodes exactly once (and only adjacent pairs, with the stored weight), every
edge endpoint is in the node set, and re-adding an edge overwrites its
weight; moreover, when no operation of the sequence is `add_edge(u, u)`,
the resulting graph has no self-loops.  (The unconditional no-self-loop
conjunct of the original claim is false: see the counterexample.) -/
theorem claim_C7_graph_invariants :
    ∀ ops : List GraphOp,
      (∀ a b, dget ((applyOps ops).neighbors a) b =
        dget ((applyOps ops).neighbors b) a) ∧
      (∀ u v : String, u ≠ v →
        (applyOps ops).edges.countP
          (fun e => decide ((e.1 = u ∧ e.2.1 = v) ∨
            (e.1 = v ∧ e.2.1 = u))) =
        (if v ∈ dkeys ((applyOps ops).neighbors u) then 1 else 0)) ∧
      (∀ e ∈ (applyOps ops).edges,
        dget ((applyOps ops).neighbors e.1) e.2.1 = some e.2.2 ∧
        e.1 ∈ (applyOps ops).nodes ∧ e.2.1 ∈ (applyOps ops).nodes) ∧
      (∀ (u v : String) (w : Int),
        dget (((applyOps ops).add_edge u v w).neighbors u) v = some w ∧
        dget (((applyOps ops).add_edge u v w).neighbors v) u = some w) ∧
      ((∀ op ∈ ops, NoLoopOp op) →
        ∀ x, x ∉ dkeys ((applyOps ops).neighbors x)) := by
  intro ops
  have hwf := wf_applyOps ops
  refine ⟨hwf.2.2.1, fun u v huv => edges_countP hwf u v huv,
    edges_weight hwf, ?_, ?_⟩
  · intro u v w
    constructor
    · rw [dget_neighbors_add_edge, if_pos (Or.inl ⟨rfl, rfl⟩)]
    · rw [dget_neighbors_add_edge, if_pos (Or.inr ⟨rfl, rfl⟩)]
  · intro hops x
    have hnone : dget ((applyOps ops).neighbors x) x = none :=
      noloop_foldl ops PyGraph.empty hops (fun y => rfl) x
    rw [mem_dkeys_iff_isSome, hnone]
    simp

/-- Witness for C7 at a one-edge graph: the pair is yielded once and there
is no self-loop. -/
theorem claim_C7_graph_invariants_witness :
    (applyOps [GraphOp.addEdge "a" "b" 2]).edges.countP
      (fun e => decide ((e.1 = "a" ∧ e.2.1 = "b") ∨
        (e.1 = "b" ∧ e.2.1 = "a"))) =
      (if "b" ∈ dkeys ((applyOps [GraphOp.addEdge "a" "b" 2]).neighbors "a")
        then 1 else 0) ∧
    "a" ∉ dkeys ((applyOps [GraphOp.addEdge "a" "b" 2]).neighbors "a") :=
  ⟨(claim_C7_graph_invariants [GraphOp.addEdge "a" "b" 2]).2.1 "a" "b"
      (by decide),
   (claim_C7_graph_invariants [GraphOp.addEdge "a" "b" 2]).2.2.2.2
      (fun op hop => by
        rw [List.mem_singleton.mp hop]
        exact (by decide : ("a" : String) ≠ "b")) "a"⟩

/-- Counterexample to C7 as stated: a single `add_edge("a", "a", 1)` call
is a finite operation sequence after which the graph does contain a
self-loop, refuting the unconditional no-self-loop conjunct. -/
theorem claim_C7_counterexample :
    "a" ∈ dkeys ((applyOps [GraphOp.addEdge "a" "a" 1]).neighbors "a") := by
  decide

/-! ### Builder characterisation (claim C1) -/

theorem keys_nodup_foldl [DecidableEq κ] {β : Type}
    (f : List (κ × α) → β → List (κ × α))
    (hf : ∀ m b, (dkeys m).Nodup → (dkeys (f m b)).Nodup) :
    ∀ (l : List β) (m : List (κ × α)),
      (dkeys m).Nodup → (dkeys (l.foldl f m)).Nodup
  | [], m, hm => hm
  | b :: rest, m, hm =>
    keys_nodup_foldl f hf rest (f m b) (hf m b hm)

theorem entries_pred_foldl [DecidableEq κ] {β : Type} (P : κ × α → Prop)
    (f : List (κ × α) → β → List (κ × α))
    (hf : ∀ m b, (∀ p ∈ m, P p) → ∀ p ∈ f m b, P p) :
    ∀ (l : List β) (m : List (κ × α)),
      (∀ p ∈ m, P p) → ∀ p ∈ l.foldl f m, P p
  | [], m, hm => hm
  | b :: rest, m, hm =>
    entries_pred_foldl P f hf rest (f m b) (hf m b hm)

theorem perm_of_nodup_subset {l1 l2 : List κ} (h1 : l1.Nodup)
    (h2 : l2.Nodup) (s1 : l1 ⊆ l2) (s2 : l2 ⊆ l1) : l1.Perm l2 :=
  (List.subperm_of_subset h1 s1).antisymm (List.subperm_of_subset h2 s2)

theorem csm_inner :
    ∀ (cs : List String) (m : List (String × List String)) (sid : String),
      cs.Nodup →
      (∀ c ∈ cs, c ≠ CentralityService.EXCLUDED_COURSE →
        sid ∉ dgetD m c []) →
      ∀ c, c ≠ CentralityService.EXCLUDED_COURSE →
        dgetD (cs.foldl (fun m course =>
          if course ≠ CentralityService.EXCLUDED_COURSE then
            dset m course (setAdd (dgetD m course []) sid) else m) m) c [] =
        (if c ∈ cs then dgetD m c [] ++ [sid] else dgetD m c [])
  | [], m, sid, _, _, c, hc => by simp
  | c0 :: rest, m, sid, hnd, hfresh, c, hc => by
    have hnd1 := List.nodup_cons.mp hnd
    rw [List.foldl_cons]
    by_cases hc0 : c0 = CentralityService.EXCLUDED_COURSE
    · rw [if_neg (by simp [hc0])]
      rw [csm_inner rest m sid hnd1.2
        (fun c1 hc1 hne => hfresh c1 (List.mem_cons_of_mem _ hc1) hne) c hc]
      have hcc0 : c ≠ c0 := fun hh => hc (hh.trans hc0)
      refine if_congr ?_ rfl rfl
      simp [List.mem_cons, hcc0]
    · rw [if_pos hc0]
      have hsidm : sid ∉ dgetD m c0 [] :=
        hfresh c0 (List.mem_cons_self _ _) hc0
      have hm1c0 : dgetD (dset m c0 (setAdd (dgetD m c0 []) sid)) c0 [] =
          dgetD m c0 [] ++ [sid] := by
        unfold dgetD
        rw [dget_dset_self]
        unfold setAdd
        have hsidm2 : sid ∉ (dget m c0).getD [] := hsidm
        rw [if_neg hsidm2]
        rfl
      have hm1ne : ∀ c1, c1 ≠ c0 →
          dgetD (dset m c0 (setAdd (dgetD m c0 []) sid)) c1 [] =
          dgetD m c1 [] := by
        intro c1 hne
        unfold dgetD
        rw [dget_dset_ne _ _ _ hne]
      have hfresh1 : ∀ c1 ∈ rest, c1 ≠ CentralityService.EXCLUDED_COURSE →
          sid ∉ dgetD (dset m c0 (setAdd (dgetD m c0 []) sid)) c1 [] := by
        intro c1 hc1 hne
        have hne0 : c1 ≠ c0 := fun hh => hnd1.1 (hh ▸ hc1)
        rw [hm1ne c1 hne0]
        exact hfresh c1 (List.mem_cons_of_mem _ hc1) hne
      rw [csm_inner rest _ sid hnd1.2 hfresh1 c hc]
      by_cases hcc0 : c = c0
      · subst hcc0
        rw [if_neg hnd1.1, hm1c0, if_pos (List.mem_cons_self _ _)]
      · rw [hm1ne c hcc0]
        refine if_congr ?_ rfl rfl
        simp [List.mem_cons, hcc0]

theorem csm_outer :
    ∀ (ss : List Student) (m : List (String × List String)),
      (∀ s ∈ ss, s.courses.Nodup) →
      (ss.map Student.id).Nodup →
      (∀ s ∈ ss, ∀ c, c ≠ CentralityService.EXCLUDED_COURSE →
        s.id ∉ dgetD m c []) →
      ∀ c, c ≠ CentralityService.EXCLUDED_COURSE →
        dgetD (ss.foldl (fun m s =>
          s.courses.foldl (fun m course =>
            if course ≠ CentralityService.EXCLUDED_COURSE then
              dset m course (setAdd (dgetD m course []) s.id) else m) m)
          m) c [] =
        dgetD m c [] ++ (ss.filter (fun s => c ∈ s.courses)).map Student.id
  | [], m, _, _, _, c, hc => by simp
  | s0 :: rest, m, hcn, hids, hfresh, c, hc => by
    have hids0 : (s0.id :: rest.map Student.id).Nodup := by
      simpa only [List.map_cons] using hids
    have hids1 := List.nodup_cons.mp hids0
    rw [List.foldl_cons]
    have hinner := csm_inner s0.courses m s0.id
      (hcn s0 (List.mem_cons_self _ _))
      (fun c1 _ hne => hfresh s0 (List.mem_cons_self _ _) c1 hne)
    have hfresh1 : ∀ s ∈ rest, ∀ c1,
        c1 ≠ CentralityService.EXCLUDED_COURSE →
        s.id ∉ dgetD (s0.courses.foldl (fun m course =>
          if course ≠ CentralityService.EXCLUDED_COURSE then
            dset m course (setAdd (dgetD m course []) s0.id) else m) m)
          c1 [] := by
      intro s hs c1 hne
      rw [hinner c1 hne]
      have hsid : s.id ≠ s0.id := by
        intro hh
        exact hids1.1 (hh ▸ List.mem_map.mpr ⟨s, hs, rfl⟩)
      by_cases hmem : c1 ∈ s0.courses
      · rw [if_pos hmem]
        simp only [List.mem_append, List.mem_singleton]
        rintro (h | h)
        · exact hfresh s (List.mem_cons_of_mem _ hs) c1 hne h
        · exact hsid h
      · rw [if_neg hmem]
        exact hfresh s (List.mem_cons_of_mem _ hs) c1 hne
    rw [csm_outer rest _ (fun s hs => hcn s (List.mem_cons_of_mem _ hs))
      hids1.2 hfresh1 c hc, hinner c hc]
    by_cases hmem : c ∈ s0.courses
    · rw [if_pos hmem, List.filter_cons_of_pos (by simpa using hmem),
        List.map_cons, List.append_assoc]
      rfl
    · rw [if_neg hmem, List.filter_cons_of_neg (by simpa using hmem)]

theorem courseStudentsMap_value (students : List Student)
    (hcn : ∀ s ∈ students, s.courses.Nodup)
    (hids : (students.map Student.id).Nodup)
    (c : String) (hc : c ≠ CentralityService.EXCLUDED_COURSE) :
    dgetD (CentralityService.courseStudentsMap students) c [] =
      (students.filter (fun s => c ∈ s.courses)).map Student.id := by
  have h := csm_outer students [] hcn hids
    (by intro s _ c1 _; simp [dgetD, dget]) c hc
  simpa [CentralityService.courseStudentsMap] using h

theorem csm_keys_nodup (students : List Student) :
    (dkeys (CentralityService.courseStudentsMap students)).Nodup := by
  unfold CentralityService.courseStudentsMap
  refine keys_nodup_foldl _ ?_ students [] (by simp [dkeys])
  intro m s hm
  refine keys_nodup_foldl _ ?_ s.courses m hm
  intro m1 course hm1
  dsimp only
  split
  · exact dkeys_dset_nodup _ _ hm1
  · exact hm1

theorem csm_entries (students : List Student) :
    ∀ p ∈ CentralityService.courseStudentsMap students,
      p.1 ≠ CentralityService.EXCLUDED_COURSE ∧ p.2 ≠ [] := by
  unfold CentralityService.courseStudentsMap
  refine entries_pred_foldl _ _ ?_ students [] (by simp)
  intro m s hm
  refine entries_pred_foldl _ _ ?_ s.courses m hm
  intro m1 course hm1 p hp
  by_cases hc : course ≠ CentralityService.EXCLUDED_COURSE
  · rw [if_pos hc] at hp
    rcases mem_of_mem_dset hp with hp | hp
    · rw [hp]
      refine ⟨hc, ?_⟩
      unfold setAdd
      by_cases hin : s.id ∈ dgetD m1 course []
      · rw [if_pos hin]
        exact List.ne_nil_of_mem hin
      · rw [if_neg hin]
        simp
    · exact hm1 p hp
  · rw [if_neg hc] at hp
    exact hm1 p hp

theorem csm_keys_iff (students : List Student)
    (hcn : ∀ s ∈ students, s.courses.Nodup)
    (hids : (students.map Student.id).Nodup) (c : String) :
    c ∈ dkeys (CentralityService.courseStudentsMap students) ↔
      (c ≠ CentralityService.EXCLUDED_COURSE ∧
        ∃ s ∈ students, c ∈ s.courses) := by
  constructor
  · intro h
    have hsome := dget_isSome_of_mem h
    cases hv : dget (CentralityService.courseStudentsMap students) c with
    | none => rw [hv] at hsome; simp at hsome
    | some v =>
      have hment := mem_of_dget_eq_some hv
      have hent := csm_entries students _ hment
      refine ⟨hent.1, ?_⟩
      have hval := courseStudentsMap_value students hcn hids c hent.1
      have hvv : dgetD (CentralityService.courseStudentsMap students) c []
          = v := by
        unfold dgetD
        rw [hv]
        rfl
      rw [hvv] at hval
      cases hfil : students.filter (fun s => c ∈ s.courses) with
      | nil =>
        rw [hfil] at hval
        exact absurd hval.symm (by simpa using hent.2)
      | cons s rest =>
        have hsmem : s ∈ students.filter (fun s => c ∈ s.courses) := by
          rw [hfil]
          exact List.mem_cons_self _ _
        have := List.mem_filter.mp hsmem
        exact ⟨s, this.1, by simpa using this.2⟩
  · rintro ⟨hc, s, hs, hcs⟩
    rw [mem_dkeys_iff_isSome]
    have hval := courseStudentsMap_value students hcn hids c hc
    have hne : (students.filter (fun s => c ∈ s.courses)).map
        Student.id ≠ [] := by
      have hsf : s ∈ students.filter (fun s => c ∈ s.courses) :=
        List.mem_filter.mpr ⟨hs, by simpa using hcs⟩
      intro hnil
      rw [List.map_eq_nil_iff] at hnil
      rw [hnil] at hsf
      simp at hsf
    cases hg : dget (CentralityService.courseStudentsMap students) c with
    | none =>
      have : dgetD (CentralityService.courseStudentsMap students) c []
          = [] := by
        unfold dgetD
        rw [hg]
        rfl
      rw [this] at hval
      exact absurd hval.symm hne
    | some v => simp

theorem mem_nonExcludedCourses (students : List Student) (c : String) :
    c ∈ nonExcludedCourses students ↔
      (c ≠ CentralityService.EXCLUDED_COURSE ∧
        ∃ s ∈ students, c ∈ s.courses) := by
  unfold nonExcludedCourses
  rw [List.mem_dedup]
  simp only [List.mem_flatten, List.mem_map]
  constructor
  · rintro ⟨l, ⟨s, hs, rfl⟩, hcl⟩
    have := List.mem_filter.mp hcl
    exact ⟨by simpa using this.2, s, hs, this.1⟩
  · rintro ⟨hc, s, hs, hcs⟩
    exact ⟨s.courses.filter
      (fun c => c ≠ CentralityService.EXCLUDED_COURSE), ⟨s, hs, rfl⟩,
      List.mem_filter.mpr ⟨hcs, by simpa using hc⟩⟩

theorem csm_keys_perm (students : List Student)
    (hcn : ∀ s ∈ students, s.courses.Nodup)
    (hids : (students.map Student.id).Nodup) :
    (dkeys (CentralityService.courseStudentsMap students)).Perm
      (nonExcludedCourses students) := by
  refine perm_of_nodup_subset (csm_keys_nodup students)
    (List.nodup_dedup _) ?_ ?_
  · intro c hc
    exact (mem_nonExcludedCourses students c).mpr
      ((csm_keys_iff students hcn hids c).mp hc)
  · intro c hc
    exact (csm_keys_iff students hcn hids c).mpr
      ((mem_nonExcludedCourses students c).mp hc)

open CentralityService in
theorem lexLt_asymm :
    ∀ {l1 l2 : List Char}, lexLt l1 l2 = true → lexLt l2 l1 = false
  | [], [], h => by simp [lexLt] at h
  | [], _ :: _, _ => by simp [lexLt]
  | _ :: _, [], h => by simp [lexLt] at h
  | c :: cs, d :: ds, h => by
    rw [lexLt] at h
    rw [lexLt]
    by_cases h1 : c.toNat < d.toNat
    · rw [if_neg (by omega), if_pos h1]
    · rw [if_neg h1] at h
      by_cases h2 : d.toNat < c.toNat
      · rw [if_pos h2] at h
        exact absurd h (by simp)
      · rw [if_neg h2] at h
        rw [if_neg h2, if_neg h1]
        exact lexLt_asymm h

open CentralityService in
theorem lexLt_total :
    ∀ {l1 l2 : List Char}, lexLt l1 l2 = false → lexLt l2 l1 = false →
      l1 = l2
  | [], [], _, _ => rfl
  | [], _ :: _, h, _ => by simp [lexLt] at h
  | _ :: _, [], _, h => by simp [lexLt] at h
  | c :: cs, d :: ds, h1, h2 => by
    rw [lexLt] at h1 h2
    by_cases hcd : c.toNat < d.toNat
    · rw [if_pos hcd] at h1
      exact absurd h1 (by simp)
    · by_cases hdc : d.toNat < c.toNat
      · rw [if_pos hdc] at h2
        exact absurd h2 (by simp)
      · rw [if_neg hcd, if_neg hdc] at h1
        rw [if_neg hdc, if_neg hcd] at h2
        have hcd2 : c.toNat = d.toNat := by omega
        have hc : c = d :=
          Char.ofNat_toNat c ▸ Char.ofNat_toNat d ▸ congrArg Char.ofNat hcd2
        rw [hc, lexLt_total h1 h2]

open CentralityService in
theorem pyStrLt_total {a b : String} (h1 : CentralityService.pyStrLt a b = false)
    (h2 : CentralityService.pyStrLt b a = false) : a = b :=
  String.ext (lexLt_total h1 h2)

open CentralityService in
theorem pyStrLt_asymm {a b : String}
    (h : CentralityService.pyStrLt a b = true) :
    CentralityService.pyStrLt b a = false :=
  lexLt_asymm h

open CentralityService in
theorem sortPair_comm (x y : String) :
    CentralityService.sortPair x y = CentralityService.sortPair y x := by
  unfold CentralityService.sortPair
  by_cases h1 : pyStrLt y x
  · rw [if_pos h1, if_neg (by rw [pyStrLt_asymm h1]; simp)]
  · rw [if_neg h1]
    by_cases h2 : pyStrLt x y
    · rw [if_pos h2]
    · rw [if_neg h2]
      have hx : pyStrLt x y = false := by simpa using h2
      have hy : pyStrLt y x = false := by simpa using h1
      rw [pyStrLt_total hx hy]

theorem sortPair_cases (x y : String) :
    CentralityService.sortPair x y = (x, y) ∨
      CentralityService.sortPair x y = (y, x) := by
  unfold CentralityService.sortPair
  by_cases h : CentralityService.pyStrLt y x
  · rw [if_pos h]
    exact Or.inr rfl
  · rw [if_neg h]
    exact Or.inl rfl

open CentralityService in
theorem sortPair_sorted (x y : String) :
    CentralityService.pyStrLt (CentralityService.sortPair x y).2
      (CentralityService.sortPair x y).1 = false := by
  unfold CentralityService.sortPair
  by_cases h : pyStrLt y x
  · rw [if_pos h]
    exact pyStrLt_asymm h
  · rw [if_neg h]
    simpa using h

theorem sortPair_ne {x y : String} (h : x ≠ y) :
    (CentralityService.sortPair x y).1 ≠
      (CentralityService.sortPair x y).2 := by
  rcases sortPair_cases x y with hc | hc <;> rw [hc]
  · exact h
  · exact h.symm

theorem sortPair_eq_of (x y a b : String) :
    CentralityService.sortPair x y = (a, b) →
      (x = a ∧ y = b) ∨ (x = b ∧ y = a) := by
  intro h
  rcases sortPair_cases x y with hc | hc <;> rw [hc] at h
  · exact Or.inl ⟨congrArg Prod.fst h, congrArg Prod.snd h⟩
  · exact Or.inr ⟨congrArg Prod.snd h, congrArg Prod.fst h⟩

theorem sortPair_eq_iff {x y a b : String} :
    CentralityService.sortPair x y = CentralityService.sortPair a b ↔
      (x = a ∧ y = b) ∨ (x = b ∧ y = a) := by
  constructor
  · intro h
    rcases sortPair_cases a b with hc | hc <;> rw [hc] at h
    · exact sortPair_eq_of x y a b h
    · rcases sortPair_eq_of x y b a h with ⟨h1, h2⟩ | ⟨h1, h2⟩
      · exact Or.inr ⟨h1, h2⟩
      · exact Or.inl ⟨h1, h2⟩
  · rintro (⟨rfl, rfl⟩ | ⟨rfl, rfl⟩)
    · rfl
    · exact sortPair_comm x y

theorem count_nodup [DecidableEq κ] {l : List κ} (hnd : l.Nodup) (a : κ) :
    l.count a = if a ∈ l then 1 else 0 := by
  by_cases hmem : a ∈ l
  · rw [if_pos hmem]
    have h1 : l.count a ≤ 1 := List.nodup_iff_count_le_one.mp hnd a
    have h2 : 0 < l.count a := List.count_pos_iff.mpr hmem
    omega
  · rw [if_neg hmem]
    exact List.count_eq_zero.mpr hmem

theorem pairsOf_mem {l : List String} (hnd : l.Nodup) :
    ∀ pr ∈ CentralityService.pairsOf l,
      ∃ x y, x ≠ y ∧ pr = CentralityService.sortPair x y := by
  induction l with
  | nil => simp [CentralityService.pairsOf]
  | cons x0 rest ih =>
    intro pr hpr
    have hnd1 := List.nodup_cons.mp hnd
    rcases List.mem_append.mp hpr with hpr | hpr
    · rcases List.mem_map.mp hpr with ⟨z, hz, hzeq⟩
      exact ⟨x0, z, fun hh => hnd1.1 (hh ▸ hz), hzeq.symm⟩
    · exact ih hnd1.2 pr hpr

theorem pairsOf_length :
    ∀ l : List String,
      (CentralityService.pairsOf l).length = l.length * (l.length - 1) / 2
  | [] => rfl
  | x0 :: rest => by
    rw [CentralityService.pairsOf, List.length_append, List.length_map,
      pairsOf_length rest]
    have h2 : 2 ∣ rest.length * (rest.length - 1) :=
      Nat.even_mul_pred_self rest.length |>.two_dvd
    have h3 : (rest.length + 1) * (rest.length + 1 - 1) =
        rest.length * (rest.length - 1) + 2 * rest.length := by
      cases rest.length with
      | zero => rfl
      | succ m =>
        simp only [Nat.add_sub_cancel]
        ring
    simp only [List.length_cons]
    omega

theorem pairsOf_count {l : List String} (hnd : l.Nodup) {x y : String}
    (hxy : x ≠ y) :
    (CentralityService.pairsOf l).count (CentralityService.sortPair x y) =
      if x ∈ l ∧ y ∈ l then 1 else 0 := by
  induction l with
  | nil => simp [CentralityService.pairsOf]
  | cons x0 rest ih =>
    have hnd1 := List.nodup_cons.mp hnd
    rw [CentralityService.pairsOf, List.count_append,
      List.count_eq_countP, List.countP_map, ih hnd1.2]
    by_cases hx0 : x0 = x
    · subst hx0
      have hhead : (rest.countP
          ((fun a => a == CentralityService.sortPair x0 y) ∘
            (fun y1 => CentralityService.sortPair x0 y1))) =
          (if y ∈ rest then 1 else 0) := by
        rw [List.countP_congr (q := fun z => z == y) ?_,
          ← List.count_eq_countP, count_nodup hnd1.2]
        intro z hz
        simp only [Function.comp_apply, beq_iff_eq]
        rw [sortPair_eq_iff]
        constructor
        · rintro (⟨_, h⟩ | ⟨h1, h2⟩)
          · exact h
          · exact absurd h1 hxy
        · intro h
          exact Or.inl ⟨rfl, h⟩
      rw [hhead]
      have htail : (if x0 ∈ rest ∧ y ∈ rest then 1 else 0) = 0 :=
        if_neg (fun hh => hnd1.1 hh.1)
      rw [htail, Nat.add_zero]
      refine if_congr ?_ rfl rfl
      have hyx0 : y ≠ x0 := fun hh => hxy hh.symm
      simp [List.mem_cons, hyx0]
    · by_cases hy0 : x0 = y
      · subst hy0
        have hhead : (rest.countP
            ((fun a => a == CentralityService.sortPair x x0) ∘
              (fun y1 => CentralityService.sortPair x0 y1))) =
            (if x ∈ rest then 1 else 0) := by
          rw [List.countP_congr (q := fun z => z == x) ?_,
            ← List.count_eq_countP, count_nodup hnd1.2]
          intro z hz
          simp only [Function.comp_apply, beq_iff_eq]
          rw [sortPair_eq_iff]
          constructor
          · rintro (⟨h1, h2⟩ | ⟨_, h⟩)
            · exact absurd h1 hx0
            · exact h
          · intro h
            exact Or.inr ⟨rfl, h⟩
        rw [hhead]
        have htail : (if x ∈ rest ∧ x0 ∈ rest then 1 else 0) = 0 :=
          if_neg (fun hh => hnd1.1 hh.2)
        rw [htail, Nat.add_zero]
        refine if_congr ?_ rfl rfl
        simp [List.mem_cons, hxy]
      · have hhead : (rest.countP
            ((fun a => a == CentralityService.sortPair x y) ∘
              (fun y1 => CentralityService.sortPair x0 y1))) = 0 := by
          rw [List.countP_eq_zero]
          intro z hz
          simp only [Function.comp_apply, beq_iff_eq]
          rw [sortPair_eq_iff]
          rintro (⟨h, _⟩ | ⟨h, _⟩)
          · exact hx0 h
          · exact hy0 h
        rw [hhead, Nat.zero_add]
        refine if_congr ?_ rfl rfl
        have hxx0 : x ≠ x0 := fun hh => hx0 hh.symm
        have hyx0 : y ≠ x0 := fun hh => hy0 hh.symm
        simp [List.mem_cons, hxx0, hyx0]

theorem entries_pred_foldl_mem [DecidableEq κ] {β : Type} (P : κ × α → Prop)
    (f : List (κ × α) → β → List (κ × α)) :
    ∀ (l : List β) (m : List (κ × α)),
      (∀ b ∈ l, ∀ m1, (∀ p ∈ m1, P p) → ∀ p ∈ f m1 b, P p) →
      (∀ p ∈ m, P p) → ∀ p ∈ l.foldl f m, P p
  | [], m, _, hm => hm
  | b :: rest, m, hf, hm =>
    entries_pred_foldl_mem P f rest (f m b)
      (fun b1 hb1 => hf b1 (List.mem_cons_of_mem _ hb1))
      (hf b (List.mem_cons_self _ _) m hm)

theorem incr_get (q : String × String) :
    ∀ (prs : List (String × String))
      (ew : List ((String × String) × Int)),
      dgetD (prs.foldl (fun ew pr => dset ew pr (dgetD ew pr 0 + 1)) ew)
        q 0 = dgetD ew q 0 + (prs.count q : Int)
  | [], ew => by simp
  | pr :: rest, ew => by
    rw [List.foldl_cons, incr_get q rest]
    by_cases hq : pr = q
    · subst hq
      have hset : dgetD (dset ew pr (dgetD ew pr 0 + 1)) pr 0 =
          dgetD ew pr 0 + 1 := by
        unfold dgetD
        rw [dget_dset_self]
        rfl
      rw [hset, List.count_cons_self]
      push_cast
      ring
    · have hset : dgetD (dset ew pr (dgetD ew pr 0 + 1)) q 0 =
          dgetD ew q 0 := by
        unfold dgetD
        rw [dget_dset_ne _ _ _ (fun hh => hq hh.symm)]
      rw [hset, List.count_cons_of_ne (fun hh => hq hh.symm)]

theorem sum_dset_incr :
    ∀ (ew : List ((String × String) × Int)) (k : String × String),
      ((dset ew k (dgetD ew k 0 + 1)).map (fun p => p.2)).sum =
        ((ew.map (fun p => p.2)).sum) + 1
  | [], k => by simp [dset, dgetD, dget]
  | (k1, v1) :: rest, k => by
    by_cases hk : k1 = k
    · subst hk
      rw [show dgetD ((k1, v1) :: rest) k1 0 = v1 by
        unfold dgetD dget
        simp]
      rw [show dset ((k1, v1) :: rest) k1 (v1 + 1) = (k1, v1 + 1) :: rest
        by rw [dset, if_pos rfl]]
      simp only [List.map_cons, List.sum_cons]
      ring
    · rw [show dgetD ((k1, v1) :: rest) k 0 = dgetD rest k 0 by
        unfold dgetD
        rw [dget, if_neg hk]]
      rw [show dset ((k1, v1) :: rest) k (dgetD rest k 0 + 1) =
        (k1, v1) :: dset rest k (dgetD rest k 0 + 1) by
          rw [dset, if_neg hk]]
      simp only [List.map_cons, List.sum_cons]
      rw [sum_dset_incr rest k]
      ring

theorem incr_sum :
    ∀ (prs : List (String × String))
      (ew : List ((String × String) × Int)),
      (((prs.foldl (fun ew pr => dset ew pr (dgetD ew pr 0 + 1)) ew)).map
        (fun p => p.2)).sum =
        ((ew.map (fun p => p.2)).sum) + (prs.length : Int)
  | [], ew => by simp
  | pr :: rest, ew => by
    rw [List.foldl_cons, incr_sum rest, sum_dset_incr, List.length_cons]
    push_cast
    ring

theorem ew_outer_get (q : String × String) :
    ∀ (entries : List (String × List String))
      (ew : List ((String × String) × Int)),
      dgetD (entries.foldl (fun ew p =>
        (CentralityService.pairsOf p.2).foldl
          (fun ew pr => dset ew pr (dgetD ew pr 0 + 1)) ew) ew) q 0 =
      dgetD ew q 0 +
        ((entries.map (fun p =>
          (((CentralityService.pairsOf p.2).count q : Int)))).sum)
  | [], ew => by simp
  | p0 :: rest, ew => by
    rw [List.foldl_cons, ew_outer_get q rest, incr_get]
    simp only [List.map_cons, List.sum_cons]
    ring

theorem ew_outer_sum :
    ∀ (entries : List (String × List String))
      (ew : List ((String × String) × Int)),
      ((entries.foldl (fun ew p =>
        (CentralityService.pairsOf p.2).foldl
          (fun ew pr => dset ew pr (dgetD ew pr 0 + 1)) ew) ew).map
        (fun p => p.2)).sum =
      ((ew.map (fun p => p.2)).sum) +
        ((entries.map (fun p =>
          (((CentralityService.pairsOf p.2).length : Int)))).sum)
  | [], ew => by simp
  | p0 :: rest, ew => by
    rw [List.foldl_cons, ew_outer_sum rest, incr_sum]
    simp only [List.map_cons, List.sum_cons]
    ring

theorem ew_keys_nodup (M : List (String × List String)) :
    (dkeys (CentralityService.edgeWeightsOf M)).Nodup := by
  unfold CentralityService.edgeWeightsOf
  refine keys_nodup_foldl _ ?_ M [] (by simp [dkeys])
  intro m b hm
  refine keys_nodup_foldl _ ?_ (CentralityService.pairsOf b.2) m hm
  intro m1 pr hm1
  exact dkeys_dset_nodup _ _ hm1

theorem ew_entries (M : List (String × List String))
    (hM : ∀ p ∈ M, p.2.Nodup) :
    ∀ p ∈ CentralityService.edgeWeightsOf M,
      (p.1.1 ≠ p.1.2 ∧ CentralityService.pyStrLt p.1.2 p.1.1 = false) ∧
        1 ≤ p.2 := by
  unfold CentralityService.edgeWeightsOf
  refine entries_pred_foldl_mem _ _ M [] ?_ (by simp)
  intro b hb m1 hm1
  refine entries_pred_foldl_mem _ _ (CentralityService.pairsOf b.2) m1
    ?_ hm1
  intro pr hpr m2 hm2 p hp
  rcases mem_of_mem_dset hp with hp | hp
  · obtain ⟨x, y, hxy, hpr2⟩ := pairsOf_mem (hM b hb) pr hpr
    subst hp
    refine ⟨⟨by rw [hpr2]; exact sortPair_ne hxy,
      by rw [hpr2]; exact sortPair_sorted x y⟩, ?_⟩
    have hge : 0 ≤ dgetD m2 pr 0 := by
      unfold dgetD
      cases hg : dget m2 pr with
      | none => simp
      | some v =>
        have := (hm2 (pr, v) (mem_of_dget_eq_some hg)).2
        simpa using le_trans (by norm_num) this
    simp only []
    omega
  · exact hm2 p hp

theorem ew_get_eq (M : List (String × List String))
    (hM : ∀ p ∈ M, p.2.Nodup) (q : String × String) :
    dget (CentralityService.edgeWeightsOf M) q =
      (if ((M.map (fun p =>
          (((CentralityService.pairsOf p.2).count q : Int)))).sum) = 0
        then none
        else some ((M.map (fun p =>
          (((CentralityService.pairsOf p.2).count q : Int)))).sum)) := by
  have hget2 : dgetD (CentralityService.edgeWeightsOf M) q 0 =
      ((M.map (fun p =>
        (((CentralityService.pairsOf p.2).count q : Int)))).sum) := by
    unfold CentralityService.edgeWeightsOf
    rw [ew_outer_get q M []]
    simp [dgetD, dget]
  cases hg : dget (CentralityService.edgeWeightsOf M) q with
  | none =>
    have h0 : dgetD (CentralityService.edgeWeightsOf M) q 0 = 0 := by
      unfold dgetD
      rw [hg]
      rfl
    rw [if_pos (by rw [← hget2, h0])]
  | some v =>
    have hv : dgetD (CentralityService.edgeWeightsOf M) q 0 = v := by
      unfold dgetD
      rw [hg]
      rfl
    have hvT := hv.symm.trans hget2
    have hv1 : 1 ≤ v :=
      (ew_entries M hM (q, v) (mem_of_dget_eq_some hg)).2
    rw [if_neg (by omega), ← hvT]

theorem sum_ite_count {β : Type} (P : β → Prop) [DecidablePred P] :
    ∀ l : List β,
      ((l.map (fun b => if P b then (1 : Int) else 0)).sum) =
        ((l.countP (fun b => decide (P b)) : Int))
  | [] => by simp
  | b :: rest => by
    rw [List.map_cons, List.sum_cons, sum_ite_count P rest,
      List.countP_cons]
    by_cases hb : P b
    · rw [if_pos hb, if_pos (by simpa using hb)]
      push_cast
      ring
    · rw [if_neg hb, if_neg (by simpa using hb)]
      push_cast
      ring

theorem wf_foldl {β : Type} (f : PyGraph → β → PyGraph)
    (hf : ∀ g b, PyGraphWF g → PyGraphWF (f g b)) :
    ∀ (l : List β) (g : PyGraph), PyGraphWF g → PyGraphWF (l.foldl f g)
  | [], _, hg => hg
  | b :: rest, g, hg => wf_foldl f hf rest (f g b) (hf g b hg)

theorem nodes_fold_adj :
    ∀ (ss : List Student) (g : PyGraph),
      (∀ s ∈ ss, s.id ∉ dkeys g.adj) →
      (ss.map Student.id).Nodup →
      (ss.foldl (fun G s =>
        G.add_node s.id [("course_count", (s.courses.length : Int))])
        g).adj = g.adj ++ ss.map (fun s => (s.id, []))
  | [], g, _, _ => by simp
  | s0 :: rest, g, hfresh, hids => by
    have hids0 : (s0.id :: rest.map Student.id).Nodup := by
      simpa only [List.map_cons] using hids
    have hids1 := List.nodup_cons.mp hids0
    rw [List.foldl_cons]
    have hadj : (g.add_node s0.id
        [("course_count", (s0.courses.length : Int))]).adj =
        g.adj ++ [(s0.id, [])] := by
      unfold PyGraph.add_node
      rw [if_neg (hfresh s0 (List.mem_cons_self _ _))]
    rw [nodes_fold_adj rest _ ?_ hids1.2]
    · rw [hadj, List.map_cons, List.append_assoc]
      rfl
    · intro s hs
      rw [hadj]
      simp only [dkeys, List.map_append, List.mem_append]
      rintro (h | h)
      · exact hfresh s (List.mem_cons_of_mem _ hs) h
      · have : s.id = s0.id := by simpa using h
        exact hids1.1 (this ▸ List.mem_map.mpr ⟨s, hs, rfl⟩)

theorem edges_fold_adj :
    ∀ (entries : List ((String × String) × Int)) (g : PyGraph)
      (x y : String),
      (dkeys entries).Nodup →
      (∀ pr ∈ dkeys entries, pr.1 ≠ pr.2 ∧
        CentralityService.pyStrLt pr.2 pr.1 = false) →
      dget ((entries.foldl (fun G p => G.add_edge p.1.1 p.1.2 p.2)
          g).neighbors x) y =
        (match dget entries (CentralityService.sortPair x y) with
          | some w => some w
          | none => dget (g.neighbors x) y)
  | [], g, x, y, _, _ => by simp [dget]
  | ((a, b), w) :: rest, g, x, y, hnd, hsd => by
    have hnd1 : (a, b) ∉ dkeys rest ∧ (dkeys rest).Nodup := by
      have : ((a, b) :: dkeys rest).Nodup := by
        simpa only [dkeys, List.map_cons] using hnd
      exact List.nodup_cons.mp this
    have hab := hsd (a, b) (by simp [dkeys])
    rw [List.foldl_cons]
    rw [edges_fold_adj rest _ x y hnd1.2
      (fun pr hpr => hsd pr (by simp [dkeys]; right; simpa [dkeys] using hpr))]
    by_cases hsp : CentralityService.sortPair x y = (a, b)
    · have hrest : dget rest (CentralityService.sortPair x y) = none := by
        refine dget_eq_none_of_not_mem ?_
        rw [hsp]
        exact hnd1.1
      rw [hrest]
      rw [show dget (((a, b), w) :: rest)
        (CentralityService.sortPair x y) = some w by
          rw [dget, if_pos hsp.symm]]
      show dget (((g.add_edge a b w)).neighbors x) y = some w
      rw [dget_neighbors_add_edge, if_pos (sortPair_eq_of x y a b hsp)]
    · rw [show dget (((a, b), w) :: rest)
        (CentralityService.sortPair x y) = dget rest
          (CentralityService.sortPair x y) by
          rw [dget, if_neg (fun hh => hsp hh.symm)]]
      cases hrest : dget rest (CentralityService.sortPair x y) with
      | some w1 => rfl
      | none =>
        show dget (((g.add_edge a b w)).neighbors x) y = _
        rw [dget_neighbors_add_edge, if_neg ?_]
        have hsab : CentralityService.sortPair a b = (a, b) := by
          unfold CentralityService.sortPair
          rw [if_neg (by rw [hab.2]; simp)]
        rintro (⟨h1, h2⟩ | ⟨h1, h2⟩)
        · exact hsp (by rw [h1, h2]; exact hsab)
        · exact hsp (by
            rw [h1, h2, sortPair_comm]
            exact hsab)

theorem csm_values_nodup (students : List Student)
    (hcn : ∀ s ∈ students, s.courses.Nodup)
    (hids : (students.map Student.id).Nodup) :
    ∀ p ∈ CentralityService.courseStudentsMap students, p.2.Nodup := by
  intro p hp
  have hg : dget (CentralityService.courseStudentsMap students) p.1 =
      some p.2 := by
    obtain ⟨c, v⟩ := p
    exact dget_eq_some_of_mem (csm_keys_nodup students) hp
  have hent := csm_entries students p hp
  have hval := courseStudentsMap_value students hcn hids p.1 hent.1
  have hvv : dgetD (CentralityService.courseStudentsMap students) p.1 []
      = p.2 := by
    unfold dgetD
    rw [hg]
    rfl
  rw [hvv] at hval
  rw [hval]
  exact List.Nodup.sublist
    (List.Sublist.map Student.id (List.filter_sublist students)) hids

theorem wf_bsn (students : List Student) :
    PyGraphWF (CentralityService.build_student_network students) := by
  unfold CentralityService.build_student_network
  exact wf_foldl _ (fun g b hg => wf_add_edge hg _ _ _) _ _
    (wf_foldl _ (fun g b hg => wf_add_node hg _ _) _ _ wf_empty)

theorem ew_keys_sorted (students : List Student)
    (hcn : ∀ s ∈ students, s.courses.Nodup)
    (hids : (students.map Student.id).Nodup) :
    ∀ pr ∈ dkeys (CentralityService.edgeWeightsOf
        (CentralityService.courseStudentsMap students)),
      pr.1 ≠ pr.2 ∧ CentralityService.pyStrLt pr.2 pr.1 = false := by
  intro pr hpr
  rcases List.mem_map.mp hpr with ⟨p, hp, hfst⟩
  have := ew_entries (CentralityService.courseStudentsMap students)
    (csm_values_nodup students hcn hids) p hp
  exact hfst ▸ this.1

theorem bsn_neighbors (students : List Student)
    (hcn : ∀ s ∈ students, s.courses.Nodup)
    (hids : (students.map Student.id).Nodup) (x y : String) :
    dget ((CentralityService.build_student_network students).neighbors x)
      y =
    dget (CentralityService.edgeWeightsOf
      (CentralityService.courseStudentsMap students))
      (CentralityService.sortPair x y) := by
  simp only [CentralityService.build_student_network]
  rw [edges_fold_adj _ _ x y
    (ew_keys_nodup (CentralityService.courseStudentsMap students))
    (ew_keys_sorted students hcn hids)]
  cases hg : dget (CentralityService.edgeWeightsOf
      (CentralityService.courseStudentsMap students))
      (CentralityService.sortPair x y) with
  | some w => rfl
  | none =>
    have hadj := nodes_fold_adj students PyGraph.empty
      (by simp [PyGraph.empty, dkeys]) hids
    show dget ((students.foldl (fun G s =>
      G.add_node s.id [("course_count", (s.courses.length : Int))])
      PyGraph.empty).neighbors x) y = none
    unfold PyGraph.neighbors dgetD
    rw [hadj]
    have hvals : ∀ p ∈ (PyGraph.empty.adj ++ students.map
        (fun s => (s.id, ([] : List (String × Int))))), p.2 = [] := by
      intro p hp
      rcases List.mem_append.mp hp with hp | hp
      · simp [PyGraph.empty] at hp
      · rcases List.mem_map.mp hp with ⟨s, _, hseq⟩
        rw [← hseq]
    cases hgx : dget (PyGraph.empty.adj ++ students.map
        (fun s => (s.id, ([] : List (String × Int))))) x with
    | none => rfl
    | some row =>
      have : row = [] := hvals (x, row) (mem_of_dget_eq_some hgx)
      rw [this]
      rfl

theorem id_mem_filter_iff (students : List Student)
    (hids : (students.map Student.id).Nodup) {s : Student}
    (hs : s ∈ students) (c : String) :
    s.id ∈ (students.filter (fun u => c ∈ u.courses)).map Student.id ↔
      c ∈ s.courses := by
  constructor
  · intro h
    rcases List.mem_map.mp h with ⟨u, hu, huid⟩
    have hufil := List.mem_filter.mp hu
    have : u = s :=
      List.inj_on_of_nodup_map hids hufil.1 hs huid
    rw [← this]
    simpa using hufil.2
  · intro h
    exact List.mem_map.mpr ⟨s, List.mem_filter.mpr ⟨hs, by simpa using h⟩,
      rfl⟩

theorem pyStrLt_irrefl (x : String) :
    CentralityService.pyStrLt x x = false := by
  cases h : CentralityService.pyStrLt x x with
  | false => rfl
  | true => exact h.symm.trans (pyStrLt_asymm h)

theorem sortPair_of_sorted {a b : String}
    (h : CentralityService.pyStrLt b a = false) :
    CentralityService.sortPair a b = (a, b) := by
  unfold CentralityService.sortPair
  rw [if_neg (by rw [h]; simp)]

theorem bsn_weight (students : List Student)
    (hcn : ∀ s ∈ students, s.courses.Nodup)
    (hids : (students.map Student.id).Nodup) {s t : Student}
    (hs : s ∈ students) (ht : t ∈ students) (hst : s.id ≠ t.id) :
    dget ((CentralityService.build_student_network students).neighbors
      s.id) t.id =
    (if 0 < sharedCourseCount s t then
      some ((sharedCourseCount s t : Int)) else none) := by
  rw [bsn_neighbors students hcn hids,
    ew_get_eq _ (csm_values_nodup students hcn hids)]
  have hvals := csm_values_nodup students hcn hids
  have hmap1 : (CentralityService.courseStudentsMap students).map
      (fun p => (((CentralityService.pairsOf p.2).count
        (CentralityService.sortPair s.id t.id) : Int))) =
      (CentralityService.courseStudentsMap students).map
      (fun p => if s.id ∈ p.2 ∧ t.id ∈ p.2 then (1 : Int) else 0) := by
    refine List.map_congr_left ?_
    intro p hp
    rw [pairsOf_count (hvals p hp) hst]
    split
    · rfl
    · rfl
  have hcount1 : ((CentralityService.courseStudentsMap students).map
      (fun p => if s.id ∈ p.2 ∧ t.id ∈ p.2 then (1 : Int) else 0)).sum =
      (((CentralityService.courseStudentsMap students).countP
        (fun p => decide (s.id ∈ p.2 ∧ t.id ∈ p.2)) : Int)) :=
    sum_ite_count _ _
  have hcount2 : (CentralityService.courseStudentsMap students).countP
      (fun p => decide (s.id ∈ p.2 ∧ t.id ∈ p.2)) =
      (CentralityService.courseStudentsMap students).countP
      (fun p => decide (p.1 ∈ s.courses ∧ p.1 ∈ t.courses)) := by
    refine List.countP_congr ?_
    intro p hp
    simp only [decide_eq_true_eq]
    have hent := csm_entries students p hp
    have hg : dget (CentralityService.courseStudentsMap students) p.1 =
        some p.2 := by
      obtain ⟨c, v⟩ := p
      exact dget_eq_some_of_mem (csm_keys_nodup students) hp
    have hval := courseStudentsMap_value students hcn hids p.1 hent.1
    have hvv : dgetD (CentralityService.courseStudentsMap students)
        p.1 [] = p.2 := by
      unfold dgetD
      rw [hg]
      rfl
    rw [hvv] at hval
    rw [hval, id_mem_filter_iff students hids hs,
      id_mem_filter_iff students hids ht]
  have hcount3 : (CentralityService.courseStudentsMap students).countP
      (fun p => decide (p.1 ∈ s.courses ∧ p.1 ∈ t.courses)) =
      ((dkeys (CentralityService.courseStudentsMap students)).filter
        (fun c => decide (c ∈ s.courses ∧ c ∈ t.courses))).length := by
    rw [← List.countP_eq_length_filter]
    rw [show dkeys (CentralityService.courseStudentsMap students) =
      (CentralityService.courseStudentsMap students).map Prod.fst
      from rfl]
    rw [List.countP_map]
    rfl
  have hperm : ((dkeys (CentralityService.courseStudentsMap
      students)).filter (fun c => decide (c ∈ s.courses ∧ c ∈ t.courses)))
      |>.Perm (s.courses.filter (fun c =>
        decide (c ≠ CentralityService.EXCLUDED_COURSE ∧
          c ∈ t.courses))) := by
    refine perm_of_nodup_subset ((csm_keys_nodup students).filter _)
      ((hcn s hs).filter _) ?_ ?_
    · intro c hc
      have h1 := List.mem_filter.mp hc
      have h2 := (csm_keys_iff students hcn hids c).mp h1.1
      have h3 := h1.2
      simp only [decide_eq_true_eq] at h3
      exact List.mem_filter.mpr ⟨h3.1, by
        simp only [decide_eq_true_eq]
        exact ⟨h2.1, h3.2⟩⟩
    · intro c hc
      have h1 := List.mem_filter.mp hc
      have h2 := h1.2
      simp only [decide_eq_true_eq] at h2
      refine List.mem_filter.mpr ⟨?_, by
        simp only [decide_eq_true_eq]
        exact ⟨h1.1, h2.2⟩⟩
      exact (csm_keys_iff students hcn hids c).mpr ⟨h2.1, s, hs, h1.1⟩
  have hfinal : ((CentralityService.courseStudentsMap students).map
      (fun p => (((CentralityService.pairsOf p.2).count
        (CentralityService.sortPair s.id t.id) : Int)))).sum =
      ((sharedCourseCount s t : Int)) := by
    rw [hmap1, hcount1, hcount2, hcount3]
    unfold sharedCourseCount
    rw [hperm.length_eq]
  rw [hfinal]
  by_cases h0 : sharedCourseCount s t = 0
  · simp [h0]
  · rw [if_neg (by exact_mod_cast h0), if_pos (Nat.pos_of_ne_zero h0)]

theorem bsn_no_loop (students : List Student)
    (hcn : ∀ s ∈ students, s.courses.Nodup)
    (hids : (students.map Student.id).Nodup) (x : String) :
    dget ((CentralityService.build_student_network students).neighbors x)
      x = none := by
  rw [bsn_neighbors students hcn hids,
    sortPair_of_sorted (pyStrLt_irrefl x)]
  refine dget_eq_none_of_not_mem ?_
  intro hmem
  exact (ew_keys_sorted students hcn hids (x, x) hmem).1 rfl

theorem bsn_edge_ne (students : List Student)
    (hcn : ∀ s ∈ students, s.courses.Nodup)
    (hids : (students.map Student.id).Nodup) :
    ∀ e ∈ (CentralityService.build_student_network students).edges,
      e.1 ≠ e.2.1 := by
  intro e he heq
  have hw := (edges_weight (wf_bsn students) e he).1
  rw [← heq, bsn_no_loop students hcn hids e.1] at hw
  exact Option.noConfusion hw

theorem nodup_of_countP_le_one [DecidableEq β] :
    ∀ {l : List β},
      (∀ b, l.countP (fun x => decide (x = b)) ≤ 1) → l.Nodup
  | [], _ => List.nodup_nil
  | b :: rest, h => by
    have hb := h b
    rw [List.countP_cons] at hb
    simp only [decide_eq_true_eq, eq_self_iff_true, if_true] at hb
    refine List.nodup_cons.mpr ⟨?_, ?_⟩
    · intro hmem
      have hpos : 0 < rest.countP (fun x => decide (x = b)) :=
        List.countP_pos.mpr ⟨b, hmem, by simp⟩
      omega
    · refine nodup_of_countP_le_one ?_
      intro b1
      have h1 := h b1
      rw [List.countP_cons] at h1
      omega

theorem bsn_EL_perm (students : List Student)
    (hcn : ∀ s ∈ students, s.courses.Nodup)
    (hids : (students.map Student.id).Nodup) :
    ((CentralityService.build_student_network students).edges.map
      (fun e => (CentralityService.sortPair e.1 e.2.1, e.2.2))).Perm
    (CentralityService.edgeWeightsOf
      (CentralityService.courseStudentsMap students)) := by
  have hwf := wf_bsn students
  have hadj := bsn_neighbors students hcn hids
  refine perm_of_nodup_subset ?_
    ((ew_keys_nodup (CentralityService.courseStudentsMap
      students)).of_map) ?_ ?_
  · refine List.Nodup.of_map Prod.fst ?_
    rw [List.map_map]
    refine nodup_of_countP_le_one ?_
    rintro ⟨p1, p2⟩
    rw [List.countP_map]
    by_cases hd : p1 = p2
    · rw [List.countP_eq_zero.mpr ?_]
      · omega
      · intro e he hbeq
        simp only [Function.comp_apply, decide_eq_true_eq] at hbeq
        have h1 := sortPair_ne (bsn_edge_ne students hcn hids e he)
        rw [hbeq] at h1
        exact h1 hd
    · have hc := edges_countP hwf p1 p2 hd
      refine le_trans (le_trans (List.countP_mono_left ?_) (le_of_eq hc))
        ?_
      · intro e he hbeq
        simp only [Function.comp_apply, decide_eq_true_eq] at hbeq
        simp only [decide_eq_true_eq]
        exact sortPair_eq_of e.1 e.2.1 p1 p2 hbeq
      · split
        · exact le_refl 1
        · omega
  · intro q hq
    rcases List.mem_map.mp hq with ⟨e, he, hqe⟩
    have hw := (edges_weight hwf e he).1
    rw [hadj e.1 e.2.1] at hw
    rw [← hqe]
    exact mem_of_dget_eq_some hw
  · rintro ⟨⟨p1, p2⟩, w⟩ hq
    have hg : dget (CentralityService.edgeWeightsOf
        (CentralityService.courseStudentsMap students)) (p1, p2) =
        some w :=
      dget_eq_some_of_mem
        (ew_keys_nodup (CentralityService.courseStudentsMap students)) hq
    have hsd := ew_keys_sorted students hcn hids (p1, p2)
      (List.mem_map.mpr ⟨((p1, p2), w), hq, rfl⟩)
    have hsp : CentralityService.sortPair p1 p2 = (p1, p2) :=
      sortPair_of_sorted hsd.2
    have hadj2 : dget ((CentralityService.build_student_network
        students).neighbors p1) p2 = some w := by
      rw [hadj p1 p2, hsp]
      exact hg
    have hmem : p2 ∈ dkeys ((CentralityService.build_student_network
        students).neighbors p1) :=
      mem_dkeys_of_dget_eq_some hadj2
    have hcnt := edges_countP hwf p1 p2 hsd.1
    rw [if_pos hmem] at hcnt
    have hpos : 0 < (CentralityService.build_student_network
        students).edges.countP
        (fun e => decide ((e.1 = p1 ∧ e.2.1 = p2) ∨
          (e.1 = p2 ∧ e.2.1 = p1))) := by omega
    rcases List.countP_pos.mp hpos with ⟨e, he, hpe⟩
    simp only [decide_eq_true_eq] at hpe
    have hspe : CentralityService.sortPair e.1 e.2.1 = (p1, p2) := by
      rcases hpe with ⟨h1, h2⟩ | ⟨h1, h2⟩
      · rw [h1, h2, hsp]
      · rw [h1, h2, sortPair_comm, hsp]
    have hwe := (edges_weight hwf e he).1
    rw [hadj e.1 e.2.1, hspe, hg] at hwe
    refine List.mem_map.mpr ⟨e, he, ?_⟩
    rw [hspe, show e.2.2 = w from (Option.some.inj hwe).symm]

theorem bsn_sum (students : List Student)
    (hcn : ∀ s ∈ students, s.courses.Nodup)
    (hids : (students.map Student.id).Nodup) :
    (((CentralityService.build_student_network students).edges).map
      (fun e => e.2.2)).sum =
    ((nonExcludedCourses students).map (fun c =>
      ((specEnrollment students c * (specEnrollment students c - 1) / 2 :
        Nat) : Int))).sum := by
  have h1 : (((CentralityService.build_student_network
      students).edges).map (fun e => e.2.2)).sum =
      ((((CentralityService.build_student_network students).edges.map
        (fun e => (CentralityService.sortPair e.1 e.2.1, e.2.2))).map
        (fun q => q.2)).sum) := by
    rw [List.map_map]
    rfl
  rw [h1, ((bsn_EL_perm students hcn hids).map (fun q => q.2)).sum_eq]
  have h2 : ((CentralityService.edgeWeightsOf
      (CentralityService.courseStudentsMap students)).map
      (fun p => p.2)).sum =
      (((CentralityService.courseStudentsMap students).map (fun p =>
        ((CentralityService.pairsOf p.2).length : Int))).sum) := by
    unfold CentralityService.edgeWeightsOf
    rw [ew_outer_sum _ []]
    simp
  rw [h2]
  have h3 : ((CentralityService.courseStudentsMap students).map (fun p =>
      ((CentralityService.pairsOf p.2).length : Int))) =
      ((CentralityService.courseStudentsMap students).map (fun p =>
        ((specEnrollment students p.1 * (specEnrollment students p.1 - 1)
          / 2 : Nat) : Int))) := by
    refine List.map_congr_left ?_
    intro p hp
    have hent := csm_entries students p hp
    have hg : dget (CentralityService.courseStudentsMap students) p.1 =
        some p.2 := by
      obtain ⟨c, v⟩ := p
      exact dget_eq_some_of_mem (csm_keys_nodup students) hp
    have hval := courseStudentsMap_value students hcn hids p.1 hent.1
    have hvv : dgetD (CentralityService.courseStudentsMap students)
        p.1 [] = p.2 := by
      unfold dgetD
      rw [hg]
      rfl
    rw [hvv] at hval
    rw [pairsOf_length, hval, List.length_map]
    rfl
  rw [h3]
  have h4 : (((CentralityService.courseStudentsMap students).map (fun p =>
      ((specEnrollment students p.1 * (specEnrollment students p.1 - 1)
        / 2 : Nat) : Int)))).sum =
      (((dkeys (CentralityService.courseStudentsMap students)).map
        (fun c => ((specEnrollment students c *
          (specEnrollment students c - 1) / 2 : Nat) : Int)))).sum := by
    rw [show dkeys (CentralityService.courseStudentsMap students) =
      (CentralityService.courseStudentsMap students).map Prod.fst from
      rfl, List.map_map]
    rfl
  rw [h4, ((csm_keys_perm students hcn hids).map _).sum_eq]

/-- C1: for records with pairwise-distinct ids and duplicate-free course
lists, `build_student_network` stores between two distinct students an
edge weight equal to their number of distinct shared non-excluded courses
(and no edge when they share none), and the total edge weight of the
graph equals the sum over every distinct non-excluded course of
`k*(k-1)/2` where `k` is that course's enrollment. -/
theorem claim_C1_student_network :
    ∀ students : List Student,
      (students.map Student.id).Nodup →
      (∀ s ∈ students, s.courses.Nodup) →
      (∀ s ∈ students, ∀ t ∈ students, s.id ≠ t.id →
        dget ((CentralityService.build_student_network students).neighbors
          s.id) t.id =
        (if 0 < sharedCourseCount s t then
          some ((sharedCourseCount s t : Int)) else none)) ∧
      ((((CentralityService.build_student_network students).edges).map
        (fun e => e.2.2)).sum =
      ((nonExcludedCourses students).map (fun c =>
        ((specEnrollment students c * (specEnrollment students c - 1) / 2 :
          Nat) : Int))).sum) := by
  intro students hids hcn
  exact ⟨fun s hs t ht hst => bsn_weight students hcn hids hs ht hst,
    bsn_sum students hcn hids⟩

/-- Witness for C1 on the demo record set: the stored A1111-B2222 weight
is the shared-course count. -/
theorem claim_C1_student_network_witness :
    dget ((CentralityService.build_student_network demoStudents).neighbors
      "A1111") "B2222" =
      (if 0 < sharedCourseCount ⟨"A1111", ["SOCI 101", "PSYC 210"]⟩
          ⟨"B2222", ["PSYC 210", "ECON 101"]⟩ then
        some ((sharedCourseCount ⟨"A1111", ["SOCI 101", "PSYC 210"]⟩
          ⟨"B2222", ["PSYC 210", "ECON 101"]⟩ : Int)) else none) :=
  (claim_C1_student_network demoStudents (by decide) (by decide)).1
    ⟨"A1111", ["SOCI 101", "PSYC 210"]⟩ (by decide)
    ⟨"B2222", ["PSYC 210", "ECON 101"]⟩ (by decide) (by decide)

/-! ### BFS correctness -/

theorem dgetD_eq_of_dget [DecidableEq κ] {d : List (κ × α)} {k : κ}
    {v : α} (dflt : α) (h : dget d k = some v) : dgetD d k dflt = v := by
  unfold dgetD
  rw [h]
  rfl

theorem dkeys_append (d e : List (κ × α)) :
    dkeys (d ++ e) = dkeys d ++ dkeys e := by
  simp [dkeys]

theorem dget_append_single_self [DecidableEq κ] {d : List (κ × α)} {k : κ}
    (v : α) (h : k ∉ dkeys d) : dget (d ++ [(k, v)]) k = some v := by
  rw [dget_append_of_not_mem _ h]
  simp [dget]

theorem dget_append_pres [DecidableEq κ] {d : List (κ × α)} {k : κ} {v : α}
    (e : List (κ × α)) (h : dget d k = some v) :
    dget (d ++ e) k = some v := by
  rw [dget_append_of_mem e (mem_dkeys_of_dget_eq_some h)]
  exact h

theorem dgetD_append_pres [DecidableEq κ] {d : List (κ × α)} {k : κ}
    (e : List (κ × α)) (dflt : α) (h : k ∈ dkeys d) :
    dgetD (d ++ e) k dflt = dgetD d k dflt := by
  unfold dgetD
  rw [dget_append_of_mem e h]

theorem neighborKeys_sub (g : PyGraph) (node : String) :
    ∀ w ∈ dkeys (g.neighbors node), w ∈ allNeighborKeys g := by
  intro w hw
  unfold PyGraph.neighbors dgetD at hw
  cases hg : dget g.adj node with
  | none => rw [hg] at hw; simp [dkeys] at hw
  | some row =>
    rw [hg] at hw
    have hmem : (node, row) ∈ g.adj := mem_of_dget_eq_some hg
    exact List.mem_flatten.mpr
      ⟨dkeys row, List.mem_map.mpr ⟨(node, row), hmem, rfl⟩, hw⟩

theorem allNeighborKeys_length (g : PyGraph) :
    (allNeighborKeys g).length = adjSize g := by
  unfold allNeighborKeys adjSize
  rw [List.length_flatten, List.map_map]
  congr 1
  refine List.map_congr_left ?_
  intro p _
  simp [dkeys]

theorem bfsVisit_lengths (dnode : Nat) :
    ∀ (nbs : List String) (dist : List (String × Nat))
      (queue : List String),
      (bfsVisit dnode nbs dist queue).1.length + queue.length =
      (bfsVisit dnode nbs dist queue).2.length + dist.length
  | [], dist, queue => by simp [bfsVisit, Nat.add_comm]
  | nb :: rest, dist, queue => by
    by_cases hmem : nb ∈ dkeys dist
    · rw [bfsVisit, if_pos hmem]
      exact bfsVisit_lengths dnode rest dist queue
    · rw [bfsVisit, if_neg hmem]
      have h := bfsVisit_lengths dnode rest (dist ++ [(nb, dnode + 1)])
        (queue ++ [nb])
      simp only [List.length_append, List.length_cons,
        List.length_nil] at h ⊢
      omega

theorem bfsInv_dist_length {g : PyGraph} {source : String}
    {dist : List (String × Nat)} {queue : List String}
    (h : BfsInv g source dist queue) :
    dist.length ≤ adjSize g + 1 := by
  have h1 : dkeys dist ⊆ source :: allNeighborKeys g := by
    intro k hk
    rcases h.keysBound k hk with h2 | h2
    · simp [h2]
    · exact List.mem_cons_of_mem _ h2
  have h2 := (List.subperm_of_subset h.nodup h1).length_le
  have h3 : (dkeys dist).length = dist.length := by simp [dkeys]
  rw [List.length_cons, allNeighborKeys_length] at h2
  omega

theorem bfsVisit_inv (g : PyGraph) (source node : String) (dnode : Nat)
    (hreach : ReachN g source node dnode) :
    ∀ (nbs : List String) (dist : List (String × Nat))
      (queue : List String),
      (∀ x ∈ nbs, x ∈ dkeys (g.neighbors node)) →
      (dkeys dist).Nodup →
      (∀ k ∈ dkeys dist, k = source ∨ k ∈ allNeighborKeys g) →
      (∀ p ∈ dist, ReachN g source p.1 p.2) →
      queue ⊆ dkeys dist →
      queue.Nodup →
      dget dist source = some 0 →
      (queue.map (fun q => dgetD dist q 0)).Pairwise (fun a b => a ≤ b) →
      (∀ x ∈ queue, ∀ y ∈ queue,
        dgetD dist x 0 ≤ dgetD dist y 0 + 1) →
      (∀ w ∈ dkeys dist, ∀ q ∈ queue,
        dgetD dist w 0 ≤ dgetD dist q 0 + 1) →
      (∀ k ∈ dkeys dist, k ∉ queue → k ≠ node →
        ∀ w ∈ dkeys (g.neighbors k),
          ∃ dw, dget dist w = some dw ∧ dw ≤ dgetD dist k 0 + 1) →
      dget dist node = some dnode →
      node ∉ queue →
      (∀ q ∈ queue, dgetD dist q 0 ≤ dnode + 1) →
      (∀ q ∈ queue, dnode ≤ dgetD dist q 0) →
      (∀ w ∈ dkeys dist, dgetD dist w 0 ≤ dnode + 1) →
      (∀ w ∈ dkeys (g.neighbors node), w ∉ nbs →
        ∃ dw, dget dist w = some dw ∧ dw ≤ dnode + 1) →
      BfsInv g source (bfsVisit dnode nbs dist queue).1
        (bfsVisit dnode nbs dist queue).2 := by
  intro nbs
  induction nbs with
  | nil =>
    intro dist queue hsub hnd hkb hsnd hqs hqn hsrc hmono htwo hdb hproc
      hdn hnq hqle hge hwle hscan
    show BfsInv g source dist queue
    refine ⟨hnd, hkb, hsnd, hqs, hqn, hsrc, hmono, htwo, hdb, ?_⟩
    intro k hk hkq w hw
    by_cases hkn : k = node
    · have hw2 : w ∈ dkeys (g.neighbors node) := by
        rw [← hkn]
        exact hw
      obtain ⟨dw, hdw, hle⟩ := hscan w hw2 (by simp)
      refine ⟨dw, hdw, ?_⟩
      rw [hkn, dgetD_eq_of_dget 0 hdn]
      exact hle
    · exact hproc k hk hkq hkn w hw
  | cons nb rest ih =>
    intro dist queue hsub hnd hkb hsnd hqs hqn hsrc hmono htwo hdb hproc
      hdn hnq hqle hge hwle hscan
    by_cases hmem : nb ∈ dkeys dist
    · rw [bfsVisit, if_pos hmem]
      refine ih dist queue (fun x hx => hsub x (List.mem_cons_of_mem _ hx))
        hnd hkb hsnd hqs hqn hsrc hmono htwo hdb hproc hdn hnq hqle hge
        hwle ?_
      intro w hw hnw
      by_cases hwnb : w = nb
      · have hwmem : w ∈ dkeys dist := by
          rw [hwnb]
          exact hmem
        obtain ⟨dw, hdw⟩ := Option.isSome_iff_exists.mp
          (dget_isSome_of_mem hwmem)
        refine ⟨dw, hdw, ?_⟩
        have h2 := hwle w hwmem
        rw [dgetD_eq_of_dget 0 hdw] at h2
        exact h2
      · exact hscan w hw
          (fun hc => (List.mem_cons.mp hc).elim hwnb hnw)
    · rw [bfsVisit, if_neg hmem]
      have hnb : nb ∈ dkeys (g.neighbors node) :=
        hsub nb (List.mem_cons_self nb rest)
      have hkeys2 : dkeys (dist ++ [(nb, dnode + 1)]) =
          dkeys dist ++ [nb] := by
        rw [dkeys_append]
        rfl
      have hget_nb : dget (dist ++ [(nb, dnode + 1)]) nb =
          some (dnode + 1) := dget_append_single_self _ hmem
      have hgetD_nb : dgetD (dist ++ [(nb, dnode + 1)]) nb 0 =
          dnode + 1 := dgetD_eq_of_dget 0 hget_nb
      have hpres : ∀ k ∈ dkeys dist,
          dgetD (dist ++ [(nb, dnode + 1)]) k 0 = dgetD dist k 0 :=
        fun k hk => dgetD_append_pres _ 0 hk
      have hmem2 : ∀ k, k ∈ dkeys (dist ++ [(nb, dnode + 1)]) ↔
          k ∈ dkeys dist ∨ k = nb := by
        intro k
        rw [hkeys2]
        simp
      refine ih (dist ++ [(nb, dnode + 1)]) (queue ++ [nb])
        (fun x hx => hsub x (List.mem_cons_of_mem _ hx))
        ?_ ?_ ?_ ?_ ?_ ?_ ?_ ?_ ?_ ?_ ?_ ?_ ?_ ?_ ?_ ?_
      · rw [hkeys2]
        refine List.nodup_append.mpr ⟨hnd, List.nodup_singleton nb, ?_⟩
        intro a ha hb
        rw [List.mem_singleton] at hb
        rw [hb] at ha
        exact hmem ha
      · intro k hk
        rcases (hmem2 k).mp hk with hk2 | hk2
        · exact hkb k hk2
        · rw [hk2]
          exact Or.inr (neighborKeys_sub g node nb hnb)
      · intro p hp
        rcases List.mem_append.mp hp with hp | hp
        · exact hsnd p hp
        · rw [List.mem_singleton] at hp
          rw [hp]
          exact ReachN.step hreach hnb
      · intro q hq
        rcases List.mem_append.mp hq with hq | hq
        · exact (hmem2 q).mpr (Or.inl (hqs hq))
        · rw [List.mem_singleton] at hq
          exact (hmem2 q).mpr (Or.inr hq)
      · refine List.nodup_append.mpr ⟨hqn, List.nodup_singleton nb, ?_⟩
        intro a ha hb
        rw [List.mem_singleton] at hb
        rw [hb] at ha
        exact hmem (hqs ha)
      · exact dget_append_pres _ hsrc
      · rw [List.map_append]
        refine List.pairwise_append.mpr ⟨?_, ?_, ?_⟩
        · have he : (queue.map
              (fun q => dgetD (dist ++ [(nb, dnode + 1)]) q 0)) =
              queue.map (fun q => dgetD dist q 0) :=
            List.map_congr_left (fun q hq => hpres q (hqs hq))
          rw [he]
          exact hmono
        · simp
        · intro a ha b hb
          simp only [List.map_cons, List.map_nil,
            List.mem_singleton] at hb
          obtain ⟨q, hq, rfl⟩ := List.mem_map.mp ha
          rw [hb, hgetD_nb, hpres q (hqs hq)]
          exact hqle q hq
      · intro x hx y hy
        rcases List.mem_append.mp hx with hx2 | hx2 <;>
          rcases List.mem_append.mp hy with hy2 | hy2
        · rw [hpres x (hqs hx2), hpres y (hqs hy2)]
          exact htwo x hx2 y hy2
        · rw [List.mem_singleton] at hy2
          rw [hpres x (hqs hx2), hy2, hgetD_nb]
          have h2 := hqle x hx2
          omega
        · rw [List.mem_singleton] at hx2
          rw [hx2, hgetD_nb, hpres y (hqs hy2)]
          have h2 := hge y hy2
          omega
        · rw [List.mem_singleton] at hx2
          rw [List.mem_singleton] at hy2
          rw [hx2, hy2, hgetD_nb]
          omega
      · intro w hw q hq
        rcases (hmem2 w).mp hw with hw2 | hw2 <;>
          rcases List.mem_append.mp hq with hq2 | hq2
        · rw [hpres w hw2, hpres q (hqs hq2)]
          exact hdb w hw2 q hq2
        · rw [List.mem_singleton] at hq2
          rw [hpres w hw2, hq2, hgetD_nb]
          have h2 := hwle w hw2
          omega
        · rw [hw2, hgetD_nb, hpres q (hqs hq2)]
          have h2 := hge q hq2
          omega
        · rw [List.mem_singleton] at hq2
          rw [hw2, hq2, hgetD_nb]
          omega
      · intro k hk hkq hkn w hw
        rcases (hmem2 k).mp hk with hk2 | hk2
        · have hkq2 : k ∉ queue :=
            fun hc => hkq (List.mem_append.mpr (Or.inl hc))
          obtain ⟨dw, hdw, hle⟩ := hproc k hk2 hkq2 hkn w hw
          refine ⟨dw, dget_append_pres _ hdw, ?_⟩
          rw [hpres k hk2]
          exact hle
        · exact absurd (List.mem_append.mpr
            (Or.inr (List.mem_singleton.mpr hk2))) hkq
      · exact dget_append_pres _ hdn
      · intro hc
        rcases List.mem_append.mp hc with hc2 | hc2
        · exact hnq hc2
        · rw [List.mem_singleton] at hc2
          have h2 : nb ∈ dkeys dist := by
            rw [← hc2]
            exact mem_dkeys_of_dget_eq_some hdn
          exact hmem h2
      · intro q hq
        rcases List.mem_append.mp hq with hq2 | hq2
        · rw [hpres q (hqs hq2)]
          exact hqle q hq2
        · rw [List.mem_singleton] at hq2
          rw [hq2, hgetD_nb]
      · intro q hq
        rcases List.mem_append.mp hq with hq2 | hq2
        · rw [hpres q (hqs hq2)]
          exact hge q hq2
        · rw [List.mem_singleton] at hq2
          rw [hq2, hgetD_nb]
          omega
      · intro w hw
        rcases (hmem2 w).mp hw with hw2 | hw2
        · rw [hpres w hw2]
          exact hwle w hw2
        · rw [hw2, hgetD_nb]
      · intro w hw hnw
        by_cases hwnb : w = nb
        · refine ⟨dnode + 1, ?_, le_refl _⟩
          rw [hwnb]
          exact hget_nb
        · obtain ⟨dw, hdw, hle⟩ := hscan w hw
            (fun hc => (List.mem_cons.mp hc).elim hwnb hnw)
          exact ⟨dw, dget_append_pres _ hdw, hle⟩

theorem bfsLoop_inv (g : PyGraph) (source : String) :
    ∀ (fuel : Nat) (dist : List (String × Nat)) (queue : List String),
      BfsInv g source dist queue →
      queue.length + (adjSize g + 1) ≤ fuel + dist.length →
      BfsInv g source (bfsLoop g fuel dist queue) []
  | 0, dist, queue, hinv, hfuel => by
    have hlen := bfsInv_dist_length hinv
    have hq : queue = [] := by
      have h2 : queue.length = 0 := by omega
      exact List.length_eq_zero.mp h2
    rw [hq] at hinv ⊢
    rw [bfsLoop]
    exact hinv
  | fuel + 1, dist, [], hinv, _ => by
    rw [bfsLoop]
    exact hinv
  | fuel + 1, dist, node :: queue, hinv, hfuel => by
    have hhead : node ∈ dkeys dist :=
      hinv.queueSub (List.mem_cons_self node queue)
    obtain ⟨d0, hd0⟩ := Option.isSome_iff_exists.mp
      (dget_isSome_of_mem hhead)
    have hdn : dget dist node = some (dgetD dist node 0) := by
      rw [dgetD_eq_of_dget 0 hd0]
      exact hd0
    have hreach : ReachN g source node (dgetD dist node 0) :=
      hinv.sound (node, dgetD dist node 0) (mem_of_dget_eq_some hdn)
    have hmono2 := List.pairwise_cons.mp
      (by simpa only [List.map_cons] using hinv.mono)
    have hpost := bfsVisit_inv g source node (dgetD dist node 0) hreach
      ((g.neighbors node).map Prod.fst) dist queue
      (fun x hx => hx)
      hinv.nodup hinv.keysBound hinv.sound
      (fun q hq => hinv.queueSub (List.mem_cons_of_mem _ hq))
      (List.nodup_cons.mp hinv.queueNodup).2
      hinv.src
      hmono2.2
      (fun x hx y hy => hinv.twoLevel x (List.mem_cons_of_mem _ hx) y
        (List.mem_cons_of_mem _ hy))
      (fun w hw q hq => hinv.distBound w hw q (List.mem_cons_of_mem _ hq))
      (fun k hk hkq hkn w hw => hinv.processed k hk
        (fun hc => (List.mem_cons.mp hc).elim hkn hkq) w hw)
      hdn
      (List.nodup_cons.mp hinv.queueNodup).1
      (fun q hq => hinv.twoLevel q (List.mem_cons_of_mem _ hq) node
        (List.mem_cons_self node queue))
      (fun q hq => hmono2.1 (dgetD dist q 0)
        (List.mem_map.mpr ⟨q, hq, rfl⟩))
      (fun w hw => hinv.distBound w hw node (List.mem_cons_self node queue))
      (fun w hw hnw => absurd hw hnw)
    have hlens := bfsVisit_lengths (dgetD dist node 0)
      ((g.neighbors node).map Prod.fst) dist queue
    have hfuel2 : (bfsVisit (dgetD dist node 0)
        ((g.neighbors node).map Prod.fst) dist queue).2.length +
        (adjSize g + 1) ≤ fuel + (bfsVisit (dgetD dist node 0)
        ((g.neighbors node).map Prod.fst) dist queue).1.length := by
      simp only [List.length_cons] at hfuel
      omega
    rw [bfsLoop]
    exact bfsLoop_inv g source fuel _ _ hpost hfuel2

theorem bfsInv_init (g : PyGraph) (source : String) :
    BfsInv g source [(source, 0)] [source] := by
  refine ⟨?_, ?_, ?_, ?_, ?_, ?_, ?_, ?_, ?_, ?_⟩
  · simp [dkeys]
  · intro k hk
    simp [dkeys] at hk
    exact Or.inl hk
  · intro p hp
    simp only [List.mem_singleton] at hp
    rw [hp]
    exact ReachN.refl
  · intro q hq
    simp only [List.mem_singleton] at hq
    rw [hq]
    simp [dkeys]
  · simp
  · simp [dget]
  · simp
  · intro x hx y hy
    simp only [List.mem_singleton] at hx hy
    rw [hx, hy]
    omega
  · intro w hw q hq
    simp only [dkeys, List.map_cons, List.map_nil,
      List.mem_singleton] at hw
    simp only [List.mem_singleton] at hq
    rw [hw, hq]
    omega
  · intro k hk hkq
    simp only [dkeys, List.map_cons, List.map_nil,
      List.mem_singleton] at hk
    rw [hk] at hkq
    simp at hkq

theorem bfsInv_complete {g : PyGraph} {source : String}
    {dist : List (String × Nat)} (h : BfsInv g source dist [])
    {v : String} {m : Nat} (hr : ReachN g source v m) :
    ∃ dv, dget dist v = some dv ∧ dv ≤ m := by
  induction hr with
  | refl => exact ⟨0, h.src, le_refl 0⟩
  | step hx hw ih =>
    obtain ⟨dv, hdv, hle⟩ := ih
    have hmem := mem_dkeys_of_dget_eq_some hdv
    obtain ⟨dw, hdw, hbound⟩ := h.processed _ hmem (by simp) _ hw
    refine ⟨dw, hdw, ?_⟩
    rw [dgetD_eq_of_dget 0 hdv] at hbound
    omega

theorem bfs_result_inv (g : PyGraph) (source : String) :
    BfsInv g source (bfs_shortest_paths g source) [] := by
  unfold bfs_shortest_paths
  refine bfsLoop_inv g source (adjSize g + 1) _ _
    (bfsInv_init g source) ?_
  simp only [List.length_cons, List.length_nil]
  omega

/-- C4: for every graph and every source node of it, `bfs_shortest_paths`
returns a dict whose keys are exactly the nodes reachable from the source
(unreachable nodes are absent), mapping the source to `0` and every
reachable node to its minimum hop count from the source; edge weights
play no role, as reachability itself is weight-blind. -/
theorem claim_C4_bfs_shortest_paths :
    ∀ (g : PyGraph) (source : String), source ∈ g.nodes →
      (∀ v, v ∈ dkeys (bfs_shortest_paths g source) ↔
        ∃ n, ReachN g source v n) ∧
      dget (bfs_shortest_paths g source) source = some 0 ∧
      (∀ v d, dget (bfs_shortest_paths g source) v = some d →
        ReachN g source v d ∧ ∀ m, ReachN g source v m → d ≤ m) := by
  intro g source hsource
  have hinv := bfs_result_inv g source
  refine ⟨?_, hinv.src, ?_⟩
  · intro v
    constructor
    · intro hv
      obtain ⟨d, hd⟩ := Option.isSome_iff_exists.mp
        (dget_isSome_of_mem hv)
      exact ⟨d, hinv.sound (v, d) (mem_of_dget_eq_some hd)⟩
    · rintro ⟨n, hn⟩
      obtain ⟨dv, hdv, _⟩ := bfsInv_complete hinv hn
      exact mem_dkeys_of_dget_eq_some hdv
  · intro v d hd
    refine ⟨hinv.sound (v, d) (mem_of_dget_eq_some hd), ?_⟩
    intro m hm
    obtain ⟨dv, hdv, hle⟩ := bfsInv_complete hinv hm
    rw [hd] at hdv
    have h2 := Option.some.inj hdv
    omega

/-- Witness for C4 on a three-node path with an isolated extra node:
the source is assigned distance `0`. -/
theorem claim_C4_bfs_shortest_paths_witness :
    dget (bfs_shortest_paths (applyOps [GraphOp.addEdge "a" "b" 1,
      GraphOp.addEdge "b" "c" 1, GraphOp.addNode "z" []]) "a") "a" =
      some 0 :=
  (claim_C4_bfs_shortest_paths (applyOps [GraphOp.addEdge "a" "b" 1,
    GraphOp.addEdge "b" "c" 1, GraphOp.addNode "z" []]) "a"
    (by decide)).2.1

theorem ReachN_zero {g : PyGraph} {source v : String}
    (h : ReachN g source v 0) : v = source := by
  cases h
  rfl

theorem dget_map_keyed [DecidableEq κ] {f : κ → κ × α}
    (hfst : ∀ x, (f x).1 = x) :
    ∀ {l : List κ} {k : κ}, k ∈ l → dget (l.map f) k = some (f k).2
  | [], k, hk => absurd hk (List.not_mem_nil k)
  | x :: rest, k, hk => by
    rcases hfx : f x with ⟨k1, v⟩
    rw [List.map_cons, hfx, dget]
    have hk1 : k1 = x := by
      rw [← hfst x, hfx]
    by_cases hkx : k = x
    · rw [if_pos (by rw [hk1, hkx])]
      rw [hkx, hfx]
    · rw [if_neg (fun hc : k1 = k => hkx (hc.symm.trans hk1))]
      exact dget_map_keyed hfst
        ((List.mem_cons.mp hk).resolve_left (fun h2 => hkx h2))

theorem listCastQ_eq : ∀ (l : List ℕ),
    (l.map (fun d => (d : ℚ))) = l.map (Nat.cast : ℕ → ℚ)
  | [] => rfl
  | x :: rest => by
    show (x : ℚ) :: (rest.map (fun d => (d : ℚ))) = _
    rw [listCastQ_eq rest]
    rfl

theorem length_le_sumQ :
    ∀ (l : List Nat), (∀ x ∈ l, 1 ≤ x) →
      (l.length : ℚ) ≤ (l.map (Nat.cast : ℕ → ℚ)).sum
  | [], _ => by simp
  | x :: rest, h => by
    simp only [List.length_cons, List.map_cons, List.sum_cons]
    have h1 : (1 : ℚ) ≤ (x : ℚ) := by
      exact_mod_cast h x (List.mem_cons_self x rest)
    have h2 := length_le_sumQ rest
      (fun y hy => h y (List.mem_cons_of_mem _ hy))
    rw [Nat.cast_add, Nat.cast_one]
    linarith

theorem bfs_entry_pos {g : PyGraph} {source : String} {p : String × Nat}
    (hp : p ∈ bfs_shortest_paths g source) (hne : p.1 ≠ source) :
    1 ≤ p.2 := by
  have hsnd := (bfs_result_inv g source).sound p hp
  rcases Nat.eq_zero_or_pos p.2 with h0 | h0
  · exfalso
    rw [h0] at hsnd
    exact hne (ReachN_zero hsnd)
  · exact h0

theorem bfs_filter_pos_eq (g : PyGraph) (node : String) :
    (bfs_shortest_paths g node).filter (fun p => p.1 ≠ node ∧ 0 < p.2) =
    (bfs_shortest_paths g node).filter (fun p => p.1 ≠ node) := by
  refine List.filter_congr ?_
  intro p hp
  by_cases hne : p.1 = node
  · rw [hne]
    simp
  · have h1 : 0 < p.2 := bfs_entry_pos hp hne
    simp [hne, h1]

theorem closeness_entry (g : PyGraph) {node : String}
    (hmem : node ∈ g.nodes) :
    dget (closeness_centrality g) node = some
      (if (((bfs_shortest_paths g node).filter
          (fun p => p.1 ≠ node ∧ 0 < p.2)).map Prod.snd) ≠ [] then
        (if 0 < (((((bfs_shortest_paths g node).filter
              (fun p => p.1 ≠ node ∧ 0 < p.2)).map Prod.snd).map
              (fun d => (d : ℚ))).sum) /
            (((((bfs_shortest_paths g node).filter
              (fun p => p.1 ≠ node ∧ 0 < p.2)).map Prod.snd)).length : ℚ)
          then 1 / ((((((bfs_shortest_paths g node).filter
              (fun p => p.1 ≠ node ∧ 0 < p.2)).map Prod.snd).map
              (fun d => (d : ℚ))).sum) /
            (((((bfs_shortest_paths g node).filter
              (fun p => p.1 ≠ node ∧ 0 < p.2)).map Prod.snd)).length : ℚ))
          else 0)
      else 0) := by
  unfold closeness_centrality
  rw [dget_map_keyed ?hf hmem]
  case hf =>
    intro x
    dsimp only
    split
    · rfl
    · rfl
  dsimp only
  by_cases hc : (((bfs_shortest_paths g node).filter
      (fun p => p.1 ≠ node ∧ 0 < p.2)).map Prod.snd) ≠ []
  · rw [if_pos hc, if_pos hc]
  · rw [if_neg hc, if_neg hc]

/-- C3: for every graph and node, the entries of the BFS dict other than
the node itself are exactly the reachable other nodes paired with their
minimum hop distances; when there are none the node's closeness is `0`,
and otherwise it is the reciprocal of the arithmetic mean of those
distances (inverse of average, not of sum). -/
theorem claim_C3_closeness :
    ∀ (g : PyGraph) (node : String), node ∈ g.nodes →
      (∀ v d, ((v, d) ∈ (bfs_shortest_paths g node).filter
          (fun p => p.1 ≠ node)) ↔
        (v ≠ node ∧ ReachN g node v d ∧
          ∀ m, ReachN g node v m → d ≤ m)) ∧
      ((bfs_shortest_paths g node).filter (fun p => p.1 ≠ node) = [] ↔
        ¬ ∃ v, v ≠ node ∧ ∃ n, ReachN g node v n) ∧
      ((bfs_shortest_paths g node).filter (fun p => p.1 ≠ node) = [] →
        dget (closeness_centrality g) node = some 0) ∧
      ((bfs_shortest_paths g node).filter (fun p => p.1 ≠ node) ≠ [] →
        dget (closeness_centrality g) node = some (1 /
          ((((((bfs_shortest_paths g node).filter
              (fun p => p.1 ≠ node)).map Prod.snd).map
              (fun d => (d : ℚ))).sum) /
            (((((bfs_shortest_paths g node).filter
              (fun p => p.1 ≠ node)).map Prod.snd)).length : ℚ)))) := by
  intro g node hmem
  have hinv := bfs_result_inv g node
  refine ⟨?_, ?_, ?_, ?_⟩
  · intro v d
    constructor
    · intro hvd
      rw [List.mem_filter] at hvd
      obtain ⟨hdict, hcond⟩ := hvd
      simp only [decide_eq_true_eq] at hcond
      refine ⟨hcond, hinv.sound (v, d) hdict, ?_⟩
      intro m hm
      obtain ⟨dv, hdv, hle⟩ := bfsInv_complete hinv hm
      have hd2 : dget (bfs_shortest_paths g node) v = some d :=
        dget_eq_some_of_mem hinv.nodup hdict
      rw [hd2] at hdv
      have h3 := Option.some.inj hdv
      omega
    · rintro ⟨hne, hr, hmin⟩
      obtain ⟨dv, hdv, hle⟩ := bfsInv_complete hinv hr
      have hge2 := hmin dv (hinv.sound (v, dv) (mem_of_dget_eq_some hdv))
      have hdeq : dv = d := by omega
      rw [List.mem_filter]
      refine ⟨?_, by simp [hne]⟩
      rw [← hdeq]
      exact mem_of_dget_eq_some hdv
  · constructor
    · intro hemp
      rintro ⟨v, hne, n, hr⟩
      obtain ⟨dv, hdv, _⟩ := bfsInv_complete hinv hr
      have hm2 : (v, dv) ∈ (bfs_shortest_paths g node).filter
          (fun p => p.1 ≠ node) := by
        rw [List.mem_filter]
        exact ⟨mem_of_dget_eq_some hdv, by simp [hne]⟩
      rw [hemp] at hm2
      exact absurd hm2 (List.not_mem_nil _)
    · intro hno
      refine List.filter_eq_nil_iff.mpr ?_
      intro p hp
      simp only [decide_eq_true_eq]
      intro hne
      exact hno ⟨p.1, hne, p.2, hinv.sound p hp⟩
  · intro hemp
    rw [closeness_entry g hmem, bfs_filter_pos_eq g node, hemp]
    simp
  · intro hnonemp
    have hA : (((bfs_shortest_paths g node).filter
        (fun p => p.1 ≠ node)).map Prod.snd) ≠ [] := by
      intro h0
      exact hnonemp (List.map_eq_nil_iff.mp h0)
    have hones : ∀ x ∈ ((bfs_shortest_paths g node).filter
        (fun p => p.1 ≠ node)).map Prod.snd, 1 ≤ x := by
      intro x hx
      obtain ⟨p, hp, hpx⟩ := List.mem_map.mp hx
      rw [List.mem_filter] at hp
      have hne : p.1 ≠ node := by
        have h2 := hp.2
        simp only [decide_eq_true_eq] at h2
        exact h2
      rw [← hpx]
      exact bfs_entry_pos hp.1 hne
    have hlen : 0 < (((bfs_shortest_paths g node).filter
        (fun p => p.1 ≠ node)).map Prod.snd).length :=
      List.length_pos.mpr hA
    have hLpos : (0 : ℚ) < ((((bfs_shortest_paths g node).filter
        (fun p => p.1 ≠ node)).map Prod.snd).length : ℚ) := by
      exact_mod_cast hlen
    have hSpos : (0 : ℚ) < (((((bfs_shortest_paths g node).filter
        (fun p => p.1 ≠ node)).map Prod.snd).map
        (fun d => (d : ℚ))).sum) := by
      rw [listCastQ_eq]
      exact lt_of_lt_of_le hLpos (length_le_sumQ _ hones)
    have hB : 0 < (((((bfs_shortest_paths g node).filter
        (fun p => p.1 ≠ node)).map Prod.snd).map
        (fun d => (d : ℚ))).sum) /
        ((((bfs_shortest_paths g node).filter
        (fun p => p.1 ≠ node)).map Prod.snd).length : ℚ) :=
      div_pos hSpos hLpos
    rw [closeness_entry g hmem, bfs_filter_pos_eq g node,
      if_pos hA, if_pos hB]

/-- Witness for C3 on the two-node graph with one edge: node `a` reaches
exactly `b` at distance `1`, so its closeness is the reciprocal of the
mean distance. -/
theorem claim_C3_closeness_witness :
    dget (closeness_centrality (applyOps [GraphOp.addEdge "a" "b" 1]))
      "a" = some (1 /
      ((((((bfs_shortest_paths (applyOps [GraphOp.addEdge "a" "b" 1])
          "a").filter (fun p => p.1 ≠ "a")).map Prod.snd).map
          (fun d => (d : ℚ))).sum) /
        (((((bfs_shortest_paths (applyOps [GraphOp.addEdge "a" "b" 1])
          "a").filter (fun p => p.1 ≠ "a")).map Prod.snd)).length : ℚ))) :=
  (claim_C3_closeness (applyOps [GraphOp.addEdge "a" "b" 1]) "a"
    (by decide)).2.2.2 (by decide)

theorem bfs_isolated {g : PyGraph} {node : String}
    (h : g.neighbors node = []) :
    bfs_shortest_paths g node = [(node, 0)] := by
  unfold bfs_shortest_paths
  rw [bfsLoop, h]
  exact bfsLoop_nil_queue g _ _

theorem roundTo_zero (prec : Nat) : roundTo prec 0 = 0 := by
  simp [roundTo]

theorem closeness_isolated (g : PyGraph) {node : String}
    (hmem : node ∈ g.nodes) (hiso : g.neighbors node = []) :
    dget (closeness_centrality g) node = some 0 := by
  rw [closeness_entry g hmem, bfs_isolated hiso]
  simp

theorem avgsep_isolated (g : PyGraph) {node : String}
    (hmem : node ∈ g.nodes) (hiso : g.neighbors node = []) :
    dget (average_separation g) node = some 0 := by
  unfold average_separation
  rw [dget_map_keyed ?hf hmem]
  case hf =>
    intro x
    dsimp only
    split
    · rfl
    · rfl
  dsimp only
  rw [bfs_isolated hiso]
  simp

theorem evStep_isolated (sqrtFn : ℚ → ℚ) (g : PyGraph)
    (nodes : List String) {node : String} (hmem : node ∈ nodes)
    (hiso : g.neighbors node = []) (prev : List (String × ℚ)) :
    dget (evStep sqrtFn g nodes prev) node = some 0 := by
  unfold evStep
  dsimp only
  split
  · rw [List.map_map, dget_map_keyed (fun x => rfl) hmem]
    simp [Function.comp, hiso]
  · rw [dget_map_keyed (fun x => rfl) hmem]
    simp [hiso]

theorem evLoop_isolated (sqrtFn : ℚ → ℚ) (g : PyGraph)
    (nodes : List String) (tol : ℚ) {node : String}
    (hmem : node ∈ nodes) (hiso : g.neighbors node = []) :
    ∀ (fuel : Nat) (prev : List (String × ℚ)), fuel ≠ 0 →
      dget (evLoop sqrtFn g nodes tol fuel prev) node = some 0
  | 0, _, h => absurd rfl h
  | fuel + 1, prev, _ => by
    rw [evLoop]
    split
    · exact evStep_isolated sqrtFn g nodes hmem hiso prev
    · rcases Nat.eq_zero_or_pos fuel with h0 | h0
      · rw [h0, evLoop]
        exact evStep_isolated sqrtFn g nodes hmem hiso prev
      · exact evLoop_isolated sqrtFn g nodes tol hmem hiso fuel _
          (by omega)

theorem eigenvector_isolated (sqrtFn : ℚ → ℚ) (g : PyGraph)
    {node : String} (hmem : node ∈ g.nodes)
    (hiso : g.neighbors node = []) :
    dget (eigenvector_centrality sqrtFn g) node = some 0 := by
  unfold eigenvector_centrality
  rw [if_neg (fun h => (List.ne_nil_of_mem hmem)
    (List.length_eq_zero.mp h))]
  exact evLoop_isolated sqrtFn g g.nodes (1/1000000) hmem hiso 100 _
    (by omega)

theorem dkeys_map_keyed [DecidableEq κ] {f : κ → κ × α}
    (hfst : ∀ x, (f x).1 = x) :
    ∀ (l : List κ), dkeys (l.map f) = l
  | [] => rfl
  | x :: rest => by
    rw [List.map_cons, dkeys, List.map_cons, hfst x]
    have h2 := dkeys_map_keyed hfst rest
    rw [dkeys] at h2
    rw [h2]

/-- C5: `calculate_centralities` returns the empty dict exactly when the
graph has zero nodes; otherwise it returns one defined record per node
(its keys are the node list), and every isolated node's record carries
closeness `0`, eigenvector `0` and avg_separation `0`. -/
theorem claim_C5_calculate_centralities :
    ∀ (sq : ℚ → ℚ) (G : PyGraph),
      (CentralityService.calculate_centralities sq G = [] ↔
        G.num_nodes = 0) ∧
      dkeys (CentralityService.calculate_centralities sq G) = G.nodes ∧
      (∀ node, node ∈ G.nodes → G.neighbors node = [] →
        ∃ s : CentScores,
          dget (CentralityService.calculate_centralities sq G) node =
            some s ∧ s.closeness = 0 ∧ s.eigenvector = 0 ∧
            s.avg_separation = 0) := by
  intro sq G
  have hlen : G.nodes.length = G.num_nodes := by
    unfold PyGraph.nodes PyGraph.num_nodes
    simp [dkeys]
  refine ⟨?_, ?_, ?_⟩
  · constructor
    · intro hres
      by_contra hnn
      unfold CentralityService.calculate_centralities at hres
      rw [if_neg hnn] at hres
      have h2 := congrArg List.length hres
      simp only [List.length_map, List.length_nil] at h2
      rw [hlen] at h2
      exact hnn h2
    · intro h0
      unfold CentralityService.calculate_centralities
      rw [if_pos h0]
  · by_cases h0 : G.num_nodes = 0
    · unfold CentralityService.calculate_centralities
      rw [if_pos h0]
      have hadj : G.adj = [] := List.length_eq_zero.mp h0
      unfold PyGraph.nodes
      rw [hadj]
      rfl
    · unfold CentralityService.calculate_centralities
      rw [if_neg h0]
      dsimp only
      rw [dkeys_map_keyed ?hf1]
      case hf1 =>
        intro x
        rfl
  · intro node hmem hiso
    have hnn : ¬ G.num_nodes = 0 := by
      intro h0
      rw [← hlen] at h0
      exact (List.ne_nil_of_mem hmem) (List.length_eq_zero.mp h0)
    unfold CentralityService.calculate_centralities
    rw [if_neg hnn]
    dsimp only
    rw [dget_map_keyed ?hf2 hmem]
    case hf2 =>
      intro x
      rfl
    refine ⟨_, rfl, ?_, ?_, ?_⟩
    · show roundTo 4 (dgetD (closeness_centrality G) node 0) = 0
      rw [dgetD_eq_of_dget 0 (closeness_isolated G hmem hiso),
        roundTo_zero]
    · show roundTo 4 (dgetD (eigenvector_centrality sq G) node 0) = 0
      rw [dgetD_eq_of_dget 0 (eigenvector_isolated sq G hmem hiso),
        roundTo_zero]
    · show roundTo 2 (dgetD (average_separation G) node 0) = 0
      rw [dgetD_eq_of_dget 0 (avgsep_isolated G hmem hiso),
        roundTo_zero]

/-- Witness for C5 on a graph with one edge `a-b` and an isolated node
`z`: the returned record for `z` has closeness, eigenvector and
avg_separation all `0`. -/
theorem claim_C5_calculate_centralities_witness :
    ∃ s : CentScores,
      dget (CentralityService.calculate_centralities (fun x => x)
        (applyOps [GraphOp.addEdge "a" "b" 1, GraphOp.addNode "z" []]))
        "z" = some s ∧ s.closeness = 0 ∧ s.eigenvector = 0 ∧
        s.avg_separation = 0 :=
  (claim_C5_calculate_centralities (fun x => x)
    (applyOps [GraphOp.addEdge "a" "b" 1, GraphOp.addNode "z" []])).2.2
    "z" (by decide) (by decide)

theorem wf_row_keys {g : PyGraph} (hwf : PyGraphWF g) :
    ∀ u, ∀ v ∈ dkeys (g.neighbors u), v ∈ dkeys g.adj := by
  intro u v hv
  by_contra hc
  have h1 : g.neighbors v = [] := by
    unfold PyGraph.neighbors dgetD
    rw [dget_eq_none_of_not_mem hc]
    rfl
  have h2 := hwf.2.2.1 u v
  rw [h1] at h2
  simp only [dget] at h2
  have h3 := dget_isSome_of_mem hv
  rw [h2] at h3
  simp at h3

theorem row_shape1 {a : String} (row : List (String × Int))
    (hnd : (dkeys row).Nodup) (hsub : ∀ k ∈ dkeys row, k = a) :
    row = [] ∨ ∃ x, row = [(a, x)] := by
  rcases row with _ | ⟨⟨k, x⟩, _ | ⟨⟨k2, x2⟩, rest⟩⟩
  · exact Or.inl rfl
  · have hk := hsub k (by simp [dkeys])
    exact Or.inr ⟨x, by rw [hk]⟩
  · exfalso
    have h1 := hsub k (by simp [dkeys])
    have h2 := hsub k2 (by simp [dkeys])
    simp only [dkeys, List.map_cons] at hnd
    exact (List.nodup_cons.mp hnd).1 (by simp [h1.trans h2.symm])

theorem row_shape2 {a b : String} (row : List (String × Int))
    (hnd : (dkeys row).Nodup) (hsub : ∀ k ∈ dkeys row, k = a ∨ k = b) :
    row = [] ∨ (∃ x, row = [(a, x)]) ∨ (∃ y, row = [(b, y)]) ∨
      (∃ x y, row = [(a, x), (b, y)]) ∨
      (∃ x y, row = [(b, y), (a, x)]) := by
  rcases row with _ | ⟨⟨k1, x1⟩, _ | ⟨⟨k2, x2⟩, _ | ⟨⟨k3, x3⟩, rest⟩⟩⟩
  · exact Or.inl rfl
  · rcases hsub k1 (by simp [dkeys]) with hk | hk
    · exact Or.inr (Or.inl ⟨x1, by rw [hk]⟩)
    · exact Or.inr (Or.inr (Or.inl ⟨x1, by rw [hk]⟩))
  · simp only [dkeys, List.map_cons] at hnd
    have hne : k1 ≠ k2 := by
      intro hc
      exact (List.nodup_cons.mp hnd).1 (by simp [hc])
    rcases hsub k1 (by simp [dkeys]) with h1 | h1 <;>
      rcases hsub k2 (by simp [dkeys]) with h2 | h2
    · exact absurd (h1.trans h2.symm) hne
    · exact Or.inr (Or.inr (Or.inr (Or.inl ⟨x1, x2, by rw [h1, h2]⟩)))
    · exact Or.inr (Or.inr (Or.inr (Or.inr ⟨x2, x1, by rw [h1, h2]⟩)))
    · exact absurd (h1.trans h2.symm) hne
  · exfalso
    have h1 := hsub k1 (by simp [dkeys])
    have h2 := hsub k2 (by simp [dkeys])
    have h3 := hsub k3 (by simp [dkeys])
    simp only [dkeys, List.map_cons] at hnd
    have hnd1 := List.nodup_cons.mp hnd
    have hnd2 := List.nodup_cons.mp hnd1.2
    have h12 : k1 ≠ k2 := fun hc => hnd1.1 (by simp [hc])
    have h13 : k1 ≠ k3 := fun hc => hnd1.1 (by simp [hc])
    have h23 : k2 ≠ k3 := fun hc => hnd2.1 (by simp [hc])
    rcases h1 with h1 | h1 <;> rcases h2 with h2 | h2 <;>
      rcases h3 with h3 | h3 <;>
      first
        | exact h12 (h1.trans h2.symm)
        | exact h13 (h1.trans h3.symm)
        | exact h23 (h2.trans h3.symm)

theorem dget_map_entry [DecidableEq κ] {f : κ × α → β} :
    ∀ {l : List (κ × α)} {k : κ} {v : α}, dget l k = some v →
      dget (l.map (fun p => (p.1, f p))) k = some (f (k, v))
  | [], k, v, h => by
    rw [dget] at h
    exact Option.noConfusion h
  | (k1, v1) :: rest, k, v, h => by
    rw [List.map_cons]
    rw [dget] at h ⊢
    by_cases hk : k1 = k
    · rw [if_pos hk] at h
      rw [if_pos hk]
      have hv := Option.some.inj h
      rw [hk, hv]
    · rw [if_neg hk] at h
      rw [if_neg hk]
      exact dget_map_entry h

theorem nodes_length_eq (g : PyGraph) :
    g.nodes.length = g.num_nodes := by
  unfold PyGraph.nodes PyGraph.num_nodes
  simp [dkeys]

/-- C2: on every well-formed graph with at most two nodes every value in
the returned betweenness dict is `0`; on every well-formed graph with
`n > 2` nodes the returned value of each node is its raw Brandes
accumulation (`betweennessRaw`) multiplied by `2 / ((n-1)*(n-2))`. -/
theorem claim_C2_betweenness :
    ∀ (g : PyGraph), PyGraphWF g →
      (g.num_nodes ≤ 2 →
        ∀ p ∈ betweenness_centrality g, p.2 = 0) ∧
      (2 < g.num_nodes →
        ∀ node val, dget (betweennessRaw g) node = some val →
          dget (betweenness_centrality g) node =
            some (val * (2 / (((g.num_nodes : ℚ) - 1) *
              ((g.num_nodes : ℚ) - 2))))) := by
  intro g hwf
  constructor
  · intro hn
    obtain ⟨adj, attrs⟩ := g
    rcases hadj : adj with _ | ⟨⟨a, ra⟩, _ | ⟨⟨b, rb⟩, rest⟩⟩
    · subst hadj
      simp [betweenness_centrality, betweennessRaw, PyGraph.nodes, dkeys]
    · subst hadj
      have hsub : ∀ k ∈ dkeys ((⟨[(a, ra)], attrs⟩ :
          PyGraph).neighbors a), k = a := by
        intro k hk
        have h2 := wf_row_keys hwf a k hk
        simpa [dkeys] using h2
      have hna : (⟨[(a, ra)], attrs⟩ : PyGraph).neighbors a = ra := by
        simp [PyGraph.neighbors, dgetD, dget]
      rw [hna] at hsub
      have hnd : (dkeys ra).Nodup := hwf.2.1 (a, ra) (by simp)
      rcases row_shape1 ra hnd hsub with hra | ⟨x, hra⟩ <;> subst hra <;>
        simp [betweenness_centrality, betweennessRaw, brandesFromSource,
          brandesLoop, brandesVisit, accumLoop, accumVisit, brandesInit,
          PyGraph.neighbors, PyGraph.nodes, PyGraph.num_nodes, adjSize,
          dget, dgetD, dset, dkeys]
    · have hrest : rest = [] := by
        subst hadj
        have h2 : (2 : Nat) + rest.length ≤ 2 := by
          simpa [PyGraph.num_nodes] using hn
        have h3 : rest.length = 0 := by omega
        exact List.length_eq_zero.mp h3
      subst hrest
      subst hadj
      have hab : a ≠ b := by
        have h2 := hwf.1
        simp only [dkeys, List.map_cons, List.map_nil] at h2
        intro hc
        exact (List.nodup_cons.mp h2).1 (by simp [hc])
      have hna : (⟨[(a, ra), (b, rb)], attrs⟩ :
          PyGraph).neighbors a = ra := by
        simp [PyGraph.neighbors, dgetD, dget]
      have hnb : (⟨[(a, ra), (b, rb)], attrs⟩ :
          PyGraph).neighbors b = rb := by
        simp [PyGraph.neighbors, dgetD, dget, hab]
      have hsuba : ∀ k ∈ dkeys ra, k = a ∨ k = b := by
        intro k hk
        have h2 := wf_row_keys hwf a k (by rw [hna]; exact hk)
        simpa [dkeys] using h2
      have hsubb : ∀ k ∈ dkeys rb, k = a ∨ k = b := by
        intro k hk
        have h2 := wf_row_keys hwf b k (by rw [hnb]; exact hk)
        simpa [dkeys] using h2
      have hnda : (dkeys ra).Nodup := hwf.2.1 (a, ra) (by simp)
      have hndb : (dkeys rb).Nodup := hwf.2.1 (b, rb) (by simp)
      rcases row_shape2 ra hnda hsuba with
          hra | ⟨x, hra⟩ | ⟨y, hra⟩ | ⟨x, y, hra⟩ | ⟨x, y, hra⟩ <;>
        rcases row_shape2 rb hndb hsubb with
          hrb | ⟨x2, hrb⟩ | ⟨y2, hrb⟩ | ⟨x2, y2, hrb⟩ | ⟨x2, y2, hrb⟩ <;>
        subst hra <;> subst hrb <;>
        simp [betweenness_centrality, betweennessRaw, brandesFromSource,
          brandesLoop, brandesVisit, accumLoop, accumVisit, brandesInit,
          PyGraph.neighbors, PyGraph.nodes, PyGraph.num_nodes, adjSize,
          dget, dgetD, dset, dkeys, hab, Ne.symm hab]
  · intro hn node val hval
    unfold betweenness_centrality
    rw [nodes_length_eq g]
    rw [if_pos hn]
    exact dget_map_entry hval

/-- Witness for C2 on the three-node path `a-b-c`: the middle node's raw
accumulation `2` is rescaled by `2/((3-1)*(3-2))`. -/
theorem claim_C2_betweenness_witness :
    dget (betweenness_centrality (applyOps [GraphOp.addEdge "a" "b" 1,
      GraphOp.addEdge "b" "c" 1])) "b" =
      some (2 * (2 / ((((applyOps [GraphOp.addEdge "a" "b" 1,
        GraphOp.addEdge "b" "c" 1]).num_nodes : ℚ) - 1) *
        (((applyOps [GraphOp.addEdge "a" "b" 1,
        GraphOp.addEdge "b" "c" 1]).num_nodes : ℚ) - 2)))) :=
  (claim_C2_betweenness (applyOps [GraphOp.addEdge "a" "b" 1,
    GraphOp.addEdge "b" "c" 1])
    (wf_applyOps [GraphOp.addEdge "a" "b" 1,
      GraphOp.addEdge "b" "c" 1])).2
    (by decide) "b" 2 (by
      simp [betweennessRaw, brandesFromSource, brandesLoop, brandesVisit,
        accumLoop, accumVisit, brandesInit, PyGraph.neighbors,
        PyGraph.nodes, PyGraph.num_nodes, adjSize, dget, dgetD, dset,
        dkeys, applyOps, applyOp, PyGraph.add_edge, PyGraph.add_node,
        PyGraph.empty, setAdd]
      norm_num)
